import Mathlib

/-!
Verification of the BigQuery indexer (`bigquery/indexer.py`).

We shallowly embed the pure core of the indexer:
* documents (python dicts) as insertion-ordered association lists,
* pandas rows as association lists whose values may be missing (`none` = NaN),
* the row-to-document builders `_docs_by_id` and `_sample_scripts_by_id`,
* the painless `UPDATE_SAMPLES_SCRIPT` merge semantics on the `samples` array,
* the nested-mapping generator `_get_nested_mappings`,
* the strategy choice and participant-ID validation of `index_table`,
* the per-sample projection of `create_samples_json_export_file`.

Fallible python operations (`del d[k]` raising `KeyError`, painless
`null.equals` raising `NullPointerException`, `sample['sample_id']`) are
modelled with `Except`.
-/

namespace BQIndexer

/-- Scalar values stored in documents (model of the JSON scalars the indexer handles). -/
inductive Value where
  | vStr : String → Value
  | vInt : Int → Value
  | vBool : Bool → Value
deriving DecidableEq

/-- Python truthiness of a value (used by `if col in row_dict and row_dict[col]`). -/
def truthy : Value → Bool
  | .vStr s => s ≠ ""
  | .vInt n => n ≠ 0
  | .vBool b => b

/-- A document / python dict: association list with insertion-order semantics. -/
abbrev Doc := List (String × Value)

/-- A dataframe row: each column holds either a value or NaN (`none`). -/
abbrev Row := List (String × Option Value)

/-- First-match association lookup (python dict access). -/
def alookup {α : Type} (k : String) : List (String × α) → Option α
  | [] => none
  | (k', v) :: t => if k' = k then some v else alookup k t

/-- Python dict assignment `d[k] = v` (overwrite in place, else append). -/
def putKV : Doc → String → Value → Doc
  | [], k, v => [(k, v)]
  | (k', v') :: t, k, v => if k' = k then (k, v) :: t else (k', v') :: putKV t k v

/-- Java `Map.putAll(b)` applied to `a`: assign every entry of `b` into `a` in order. -/
def putAll (a b : Doc) : Doc := b.foldl (fun acc p => putKV acc p.1 p.2) a

/-- Removal of a key (python `del d[k]` on the dict content; the indexer's dicts
come from dataframe rows, whose column names are unique). -/
def eraseKey {α : Type} : List (String × α) → String → List (String × α)
  | [], _ => []
  | (k', v) :: t, k => if k' = k then eraseKey t k else (k', v) :: eraseKey t k

/-- `row.dropna().to_dict()`: keep exactly the columns whose value is present. -/
def dropna : Row → Doc
  | [] => []
  | (_, none) :: t => dropna t
  | (k, some v) :: t => (k, v) :: dropna t

/-- Table scoping of every field name, as in `_docs_by_id`. -/
def scopeKeys (t : String) (d : Doc) : Doc := d.map (fun p => (t ++ "." ++ p.1, p.2))

/-- Scoped name of a column in `_sample_scripts_by_id`: the sample-ID column is
left unscoped, every other column gets the `<table>.` scope. -/
def scopeName (t sid c : String) : String := if c = sid then c else t ++ "." ++ c

/-- Table scoping of every field name except the sample-ID column. -/
def scopeKeysExcept (t sid : String) (d : Doc) : Doc :=
  d.map (fun p => (scopeName t sid p.1, p.2))

/-- Substring test on character lists (python `needle in hay`). -/
def isSubstrOf (needle : List Char) : List Char → Bool
  | [] => needle.isEmpty
  | a :: t => needle.isPrefixOf (a :: t) || isSubstrOf needle t

/-- Python `needle in hay` on strings. -/
def strIn (needle hay : String) : Bool := isSubstrOf needle.data hay.data

/-- `s.lower().replace(" ", "_")` (model for ASCII file-type labels). -/
def lowerUnderscore (s : String) : String :=
  String.mk (s.data.map (fun c => if c = ' ' then '_' else c.toLower))

/-- The derived flag name `'_has_%s' % file_type.lower().replace(" ", "_")`. -/
def hasName (fileType : String) : String := "_has_" ++ lowerUnderscore fileType

/-- One step of `_docs_by_id` for one row: drop NaNs, delete the participant-ID
column (KeyError if it is absent or NaN), scope every remaining field name, and
pair with the participant ID. -/
def docs_by_id_row (t pid : String) (row : Row) : Except String (Value × Doc) :=
  match alookup pid (dropna row) with
  | none => Except.error "KeyError"
  | some idv => Except.ok (idv, scopeKeys t (eraseKey (dropna row) pid))

/-- Truthiness of an optional lookup: `col in d and d[col]`. -/
def truthyOpt : Option Value → Bool
  | some v => truthy v
  | none => false

/-- The `_has_<file_type>` flag loop of `_sample_scripts_by_id`: for each
configured (file type, column) pair whose column mentions the current table
name, set the flag from the presence and truthiness of the column. -/
def addFileFlags (t : String) (sfc : List (String × String)) (d : Doc) : Doc :=
  sfc.foldl
    (fun acc p =>
      if strIn t p.2 then
        putKV acc (hasName p.1) (Value.vBool (truthyOpt (alookup p.2 acc)))
      else acc)
    d

/-- One step of `_sample_scripts_by_id` for one row: drop NaNs, delete the
participant-ID column, scope every field except the sample-ID column, add the
`_has_*` flags, and pair the resulting merge-operation payload with the
participant ID. -/
def sample_scripts_by_id_row (t pid sid : String) (sfc : List (String × String))
    (row : Row) : Except String (Value × Doc) :=
  match alookup pid (dropna row) with
  | none => Except.error "KeyError"
  | some idv =>
      Except.ok (idv, addFileFlags t sfc (scopeKeysExcept t sid (eraseKey (dropna row) pid)))

/-- Painless `a.equals(b)` where `a` and `b` come from `Map.get` and may be
null: a null receiver throws `NullPointerException`. -/
def painlessEq : Option Value → Option Value → Except String Bool
  | none, _ => Except.error "NullPointerException"
  | some a, some b => Except.ok (decide (a = b))
  | some _, none => Except.ok false

/-- The scan loop of `UPDATE_SAMPLES_SCRIPT`: walk the samples array and keep
the index of the last element whose sample-ID equals the incoming sample's. -/
def findRemoveIdx (sid : String) (pv : Option Value) : List Doc → Nat → Except String (Option Nat)
  | [], _ => Except.ok none
  | d :: t, i => do
    let b ← painlessEq (alookup sid d) pv
    let rest ← findRemoveIdx sid pv t (i + 1)
    pure (match rest with
          | some j => some j
          | none => if b then some i else none)

/-- Semantics of one execution of `UPDATE_SAMPLES_SCRIPT` against the current
`samples` array (`none` = the document has no `samples` key). -/
def updateSamples (sid : String) (samples : Option (List Doc)) (p : Doc) :
    Except String (Option (List Doc)) :=
  match samples with
  | none => Except.ok (some [p])
  | some l => do
    let ri ← findRemoveIdx sid (alookup sid p) l 0
    match ri with
    | some i => pure (some ((l.eraseIdx i) ++ [putAll (l.getD i []) p]))
    | none => pure (some (l ++ [p]))

/-- Apply a sequence of merge operations in order. -/
def applySampleOps (sid : String) (init : Option (List Doc)) (ops : List Doc) :
    Except String (Option (List Doc)) :=
  ops.foldlM (updateSamples sid) init

/-- The field-wise merge of a nonempty sequence of merge-operation payloads
(repeated `putAll`). -/
def mergeOps : List Doc → Doc
  | [] => []
  | d :: t => t.foldl putAll d

/-- Value assigned to key `k` by the last assignment while iterating a dict's
entries in order (rightmost occurrence). -/
def lastLookup (k : String) : Doc → Option Value
  | [] => none
  | (k', v) :: t =>
    match lastLookup k t with
    | some w => some w
    | none => if k' = k then some v else none

/-- The last value written to field `k` across a sequence of operations. -/
def lastWrite (k : String) : List Doc → Option Value
  | [] => none
  | d :: t =>
    match lastWrite k t with
    | some w => some w
    | none => lastLookup k d

/-- Specification of the scan loop: index of the last element whose sample-ID
equals `v`. -/
def lastMatchIdx (sid : String) (v : Value) : List Doc → Option Nat
  | [] => none
  | d :: t =>
    match lastMatchIdx sid v t with
    | some j => some (j + 1)
    | none => if alookup sid d = some v then some 0 else none

mutual

/-- A BigQuery schema field: name, field type, mode, sub-fields. -/
inductive SchemaField where
  | mk : String → String → String → SchemaFields → SchemaField

/-- A list of schema fields (mutual with `SchemaField` so that structural
recursion over the schema tree is available). -/
inductive SchemaFields where
  | nil : SchemaFields
  | cons : SchemaField → SchemaFields → SchemaFields

end

def SchemaField.name : SchemaField → String
  | .mk n _ _ _ => n

def SchemaField.field_type : SchemaField → String
  | .mk _ ft _ _ => ft

def SchemaField.mode : SchemaField → String
  | .mk _ _ m _ => m

def SchemaField.fields : SchemaField → SchemaFields
  | .mk _ _ _ fs => fs

def SchemaFields.toList : SchemaFields → List SchemaField
  | .nil => []
  | .cons f t => f :: t.toList

/-- Whether a field is a repeated record (gets `{'type': 'nested'}`). -/
def isRepRec (f : SchemaField) : Bool :=
  decide (f.mode = "REPEATED") && decide (f.field_type = "RECORD")

mutual

/-- An Elasticsearch mapping entry built by `_get_nested_mappings`: whether it
carries `'type': 'nested'`, and its `'properties'` sub-mapping
(`Mappings.nil` means the `'properties'` key is absent — the source only ever
stores a non-empty inner mapping). -/
inductive MappingEntry where
  | mk : Bool → Mappings → MappingEntry

/-- A mapping dictionary: ordered entries of name and `MappingEntry`. -/
inductive Mappings where
  | nil : Mappings
  | cons : String → MappingEntry → Mappings → Mappings

end

def MappingEntry.typeNested : MappingEntry → Bool
  | .mk b _ => b

def MappingEntry.properties : MappingEntry → Mappings
  | .mk _ m => m

def Mappings.toList : Mappings → List (String × MappingEntry)
  | .nil => []
  | .cons n e t => (n, e) :: t.toList

def Mappings.isNil : Mappings → Bool
  | .nil => true
  | .cons _ _ _ => false

/-- `'%s.%s' % (prefix, field.name) if prefix else field.name`. -/
def mkFieldName (pfx : Option String) (n : String) : String :=
  match pfx with
  | some p => p ++ "." ++ n
  | none => n

mutual

/-- The entry (if any) contributed by one field in the loop of
`_get_nested_mappings`: present iff the field is a repeated record or its
sub-fields contribute a non-empty inner mapping.  The recursive call on the
sub-fields passes no prefix, exactly as the source does. -/
def nestedEntriesF (pfx : Option String) : SchemaField → Option (String × MappingEntry)
  | SchemaField.mk n ftype mode fields =>
    let inner := nestedEntriesL none fields
    let isRep : Bool := decide (mode = "REPEATED") && decide (ftype = "RECORD")
    if isRep || !inner.isNil then some (mkFieldName pfx n, MappingEntry.mk isRep inner)
    else none

/-- The mapping dictionary built by the loop of `_get_nested_mappings` over a
field list. -/
def nestedEntriesL (pfx : Option String) : SchemaFields → Mappings
  | .nil => .nil
  | .cons f rest =>
    match nestedEntriesF pfx f with
    | some (n, e) => .cons n e (nestedEntriesL pfx rest)
    | none => nestedEntriesL pfx rest

end

/-- `_get_nested_mappings(schema, prefix)`: the built dictionary, or `None`
when it is empty. -/
def _get_nested_mappings (schema : SchemaFields) (pfx : Option String) : Option Mappings :=
  match nestedEntriesL pfx schema with
  | .nil => none
  | .cons n e t => some (.cons n e t)

mutual

/-- Whether a field needs any special mapping (it is a repeated record, or some
descendant is). -/
def needsMapping : SchemaField → Bool
  | SchemaField.mk _ ftype mode fields =>
    (decide (mode = "REPEATED") && decide (ftype = "RECORD")) || needsMappingL fields

/-- Whether any field of the list needs a special mapping. -/
def needsMappingL : SchemaFields → Bool
  | .nil => false
  | .cons f t => needsMapping f || needsMappingL t

end

mutual

/-- All keys mapped to `'type': 'nested'` anywhere below a mapping entry. -/
def collectNestedKeysE : MappingEntry → List String
  | .mk _ inner => collectNestedKeysM inner

/-- All keys mapped to `'type': 'nested'` anywhere in a mapping dictionary. -/
def collectNestedKeysM : Mappings → List String
  | .nil => []
  | .cons n e t =>
    (if e.typeNested then [n] else []) ++ collectNestedKeysE e ++ collectNestedKeysM t

end

/-- All nested-typed keys of an optional mapping dictionary. -/
def collectNestedKeysOpt : Option Mappings → List String
  | none => []
  | some m => collectNestedKeysM m

/-- A fetched table: column names and rows. -/
structure DataFrame where
  columns : List String
  rows : List Row

/-- What `index_table` hands to the bulk indexer. -/
inductive Submission where
  | scripts : List (Value × Doc) → Submission
  | docs : List (Value × Doc) → Submission

/-- `_docs_by_id` over all rows (the generator, forced). -/
def _docs_by_id (t pid : String) (rows : List Row) : Except String (List (Value × Doc)) :=
  rows.mapM (docs_by_id_row t pid)

/-- `_sample_scripts_by_id` over all rows (the generator, forced). -/
def _sample_scripts_by_id (t pid sid : String) (sfc : List (String × String))
    (rows : List Row) : Except String (List (Value × Doc)) :=
  rows.mapM (sample_scripts_by_id_row t pid sid sfc)

/-- The decision core of `index_table`: validate the participant-ID column,
then choose scripted sample updates or flat partial-update documents. -/
def index_table (t pid : String) (sid : Option String) (sfc : List (String × String))
    (df : DataFrame) : Except String Submission :=
  if pid ∈ df.columns then
    match sid with
    | some s =>
      if s ∈ df.columns then
        (_sample_scripts_by_id t pid s sfc df.rows).map Submission.scripts
      else
        (_docs_by_id t pid df.rows).map Submission.docs
    | none => (_docs_by_id t pid df.rows).map Submission.docs
  else
    Except.error ("Participant ID column " ++ pid ++ " not found in BigQuery table " ++ t)

/-- python `s.split('.')` on character lists. -/
def splitCharsDot : List Char → List (List Char)
  | [] => [[]]
  | c :: t =>
    if c = '.' then [] :: splitCharsDot t
    else
      match splitCharsDot t with
      | [] => [[c]]
      | h :: r => (c :: h) :: r

/-- python `s.split('.')`. -/
def splitDots (s : String) : List String := (splitCharsDot s.data).map (fun l => String.mk l)

/-- A Terra export record: entity type, sample name, attributes. -/
structure ExportRecord where
  entityType : String
  name : Value
  attributes : Doc

/-- One iteration of the attribute projection loop of
`create_samples_json_export_file`: keep the field iff its name has four
dot-separated segments, keyed by the fourth segment. -/
def exportStep (acc : Doc) (p : String × Value) : Doc :=
  if (splitDots p.1).length = 4 then putKV acc ((splitDots p.1).getD 3 "") p.2 else acc

/-- The attribute projection of `create_samples_json_export_file`: start from
`{'participant': participant_id}` and keep exactly the fields whose name has
four dot-separated segments, keyed by their fourth segment. -/
def buildAttrs (pid : Value) (sample : Doc) : Doc :=
  sample.foldl exportStep [("participant", pid)]

/-- Per-sample step of `create_samples_json_export_file`: read
`sample['sample_id']` (KeyError if absent), then build the export record. -/
def exportSampleRecord (pid : Value) (sample : Doc) : Except String ExportRecord :=
  match alookup "sample_id" sample with
  | none => Except.error "KeyError: sample_id"
  | some sid => Except.ok ⟨"sample", sid, buildAttrs pid sample⟩

/-- `oor a b`: `a` if present, else `b` (first-some). -/
def oor {α : Type} : Option α → Option α → Option α
  | some a, _ => some a
  | none, b => b

/-- One iteration of the scan loop, as a function of the result of the rest. -/
def scanStep (b : Bool) (i : Nat) : Option Nat → Option Nat
  | some j => some j
  | none => if b then some i else none

/-- The mapping entry `_get_nested_mappings` associates to a schema field that
needs one: the prefixed name, the nested marker, and the sub-mapping built with
no prefix. -/
def entrySpec (pfx : Option String) (f : SchemaField) : String × MappingEntry :=
  (mkFieldName pfx f.name, MappingEntry.mk (isRepRec f) (nestedEntriesL none f.fields))

/-- Example schema: a singular record `a` containing a repeated record `b`. -/
def exNestedSchema : SchemaFields :=
  .cons (SchemaField.mk "a" "RECORD" "NULLABLE"
    (.cons (SchemaField.mk "b" "RECORD" "REPEATED" .nil) .nil)) .nil

/-- Example schema: a singular record `a` containing only a scalar child. -/
def exScalarChildSchema : SchemaFields :=
  .cons (SchemaField.mk "a" "RECORD" "NULLABLE"
    (.cons (SchemaField.mk "b" "STRING" "NULLABLE" .nil) .nil)) .nil

/-! ### Association-list lemmas -/

@[simp] theorem oor_some {α : Type} (a : α) (b : Option α) : oor (some a) b = some a := rfl

@[simp] theorem oor_none {α : Type} (b : Option α) : oor none b = b := rfl

theorem oor_assoc {α : Type} (a b c : Option α) : oor (oor a b) c = oor a (oor b c) := by
  cases a <;> rfl

@[simp] theorem alookup_nil {α : Type} (k : String) : alookup (α := α) k [] = none := rfl

@[simp] theorem alookup_cons {α : Type} (k k' : String) (v : α) (t : List (String × α)) :
    alookup k ((k', v) :: t) = if k' = k then some v else alookup k t := rfl

theorem alookup_putKV (d : Doc) (k : String) (v : Value) (x : String) :
    alookup x (putKV d k v) = if k = x then some v else alookup x d := by
  induction d with
  | nil =>
      by_cases h : k = x <;> simp [putKV, h]
  | cons p t ih =>
      obtain ⟨a, b⟩ := p
      by_cases hak : a = k
      · subst hak
        by_cases hx : a = x <;> simp [putKV, hx]
      · by_cases hx : a = x
        · subst hx
          have hkx : ¬ k = a := fun h => hak h.symm
          simp [putKV, hak, hkx]
        · simp [putKV, hak, hx, ih]

theorem alookup_eq_none_iff {α : Type} (k : String) (d : List (String × α)) :
    alookup k d = none ↔ ∀ p ∈ d, p.1 ≠ k := by
  induction d with
  | nil => simp
  | cons p t ih =>
      obtain ⟨a, b⟩ := p
      by_cases h : a = k <;> simp [h, ih]

theorem alookup_mem {α : Type} {k : String} {v : α} {d : List (String × α)}
    (h : alookup k d = some v) : (k, v) ∈ d := by
  induction d with
  | nil => simp [alookup] at h
  | cons p t ih =>
      obtain ⟨a, b⟩ := p
      by_cases hk : a = k
      · subst hk
        simp at h
        simp [h]
      · simp [hk] at h
        exact List.mem_cons_of_mem _ (ih h)

theorem mem_alookup_isSome {α : Type} {k : String} {v : α} {d : List (String × α)}
    (h : (k, v) ∈ d) : (alookup k d).isSome := by
  induction d with
  | nil => simp at h
  | cons p t ih =>
      obtain ⟨a, b⟩ := p
      rcases List.mem_cons.mp h with h1 | h2
      · cases h1
        simp
      · by_cases hk : a = k <;> simp [hk, ih h2]

theorem mem_alookup_nodup {α : Type} {k : String} {v : α} {d : List (String × α)}
    (hnd : (d.map Prod.fst).Nodup) (h : (k, v) ∈ d) : alookup k d = some v := by
  induction d with
  | nil => simp at h
  | cons p t ih =>
      obtain ⟨a, b⟩ := p
      simp only [List.map_cons, List.nodup_cons] at hnd
      rcases List.mem_cons.mp h with h1 | h2
      · cases h1
        simp
      · have hak : a ≠ k := by
          intro hak
          subst hak
          exact hnd.1 (List.mem_map.mpr ⟨(a, v), h2, rfl⟩)
        simp [hak, ih hnd.2 h2]

theorem lastLookup_eq_none_iff (k : String) (d : Doc) :
    lastLookup k d = none ↔ ∀ p ∈ d, p.1 ≠ k := by
  induction d with
  | nil => simp [lastLookup]
  | cons p t ih =>
      obtain ⟨a, b⟩ := p
      simp only [lastLookup]
      cases h : lastLookup k t with
      | some w =>
          constructor
          · intro hx
            cases hx
          · intro hx
            rw [ih.mpr (fun q hq => hx q (List.mem_cons_of_mem _ hq))] at h
            cases h
      | none =>
          by_cases hak : a = k
          · subst hak
            simp only [if_pos rfl]
            constructor
            · intro hx
              cases hx
            · intro hx
              exact absurd rfl (hx (a, b) (List.mem_cons_self _ _))
          · simp only [if_neg hak]
            constructor
            · intro _ q hq
              rcases List.mem_cons.mp hq with h1 | h2
              · cases h1
                exact hak
              · exact ih.mp h q h2
            · intro _
              trivial

theorem lastLookup_eq_alookup_nodup {k : String} {d : Doc}
    (hnd : (d.map Prod.fst).Nodup) : lastLookup k d = alookup k d := by
  induction d with
  | nil => rfl
  | cons p t ih =>
      obtain ⟨a, b⟩ := p
      simp only [List.map_cons, List.nodup_cons] at hnd
      simp only [lastLookup, ih hnd.2]
      by_cases hak : a = k
      · subst hak
        have : alookup a t = none := by
          rw [alookup_eq_none_iff]
          intro q hq hq1
          exact hnd.1 (List.mem_map.mpr ⟨q, hq, hq1⟩)
        simp [this]
      · cases h : alookup k t <;> simp [hak, h]

theorem alookup_putAll (b a : Doc) (k : String) :
    alookup k (putAll a b) = oor (lastLookup k b) (alookup k a) := by
  induction b generalizing a with
  | nil => simp [putAll, lastLookup]
  | cons p t ih =>
      obtain ⟨q, v⟩ := p
      have hstep : putAll a ((q, v) :: t) = putAll (putKV a q v) t := rfl
      rw [hstep, ih]
      simp only [lastLookup]
      cases h : lastLookup k t with
      | some w => simp
      | none =>
          simp only [oor_none]
          rw [alookup_putKV]
          by_cases hqk : q = k <;> simp [hqk]

theorem alookup_foldl_putAll (ops : List Doc) (init : Doc) (k : String) :
    alookup k (ops.foldl putAll init) = oor (lastWrite k ops) (alookup k init) := by
  induction ops generalizing init with
  | nil => simp [lastWrite]
  | cons d t ih =>
      have hstep : (d :: t).foldl putAll init = t.foldl putAll (putAll init d) := rfl
      rw [hstep, ih, alookup_putAll]
      simp only [lastWrite]
      cases h : lastWrite k t with
      | some w => simp
      | none => simp

/-! ### dropna and eraseKey lemmas -/

theorem mem_dropna {row : Row} {k : String} {v : Value} :
    (k, v) ∈ dropna row ↔ (k, some v) ∈ row := by
  induction row with
  | nil => simp [dropna]
  | cons p t ih =>
      obtain ⟨a, ov⟩ := p
      cases ov with
      | none =>
          simp only [dropna, ih, List.mem_cons]
          constructor
          · exact Or.inr
          · rintro (h | h)
            · cases h
            · exact h
      | some w => simp [dropna, ih, List.mem_cons, Prod.ext_iff]

theorem dropna_keys_sub {row : Row} {p : String × Value} (h : p ∈ dropna row) :
    p.1 ∈ row.map Prod.fst := by
  obtain ⟨k, v⟩ := p
  exact List.mem_map.mpr ⟨(k, some v), mem_dropna.mp h, rfl⟩

theorem dropna_nodup {row : Row} (h : (row.map Prod.fst).Nodup) :
    ((dropna row).map Prod.fst).Nodup := by
  induction row with
  | nil => simp [dropna]
  | cons p t ih =>
      obtain ⟨a, ov⟩ := p
      simp only [List.map_cons, List.nodup_cons] at h
      cases ov with
      | none => exact ih h.2
      | some w =>
          simp only [dropna, List.map_cons, List.nodup_cons]
          refine ⟨fun hmem => ?_, ih h.2⟩
          obtain ⟨q, hq, hq1⟩ := List.mem_map.mp hmem
          exact h.1 (by rw [← hq1]; exact dropna_keys_sub hq)

theorem alookup_dropna {row : Row} (hnd : (row.map Prod.fst).Nodup) (k : String) :
    alookup k (dropna row) = (alookup k row).bind id := by
  induction row with
  | nil => simp [dropna]
  | cons p t ih =>
      obtain ⟨a, ov⟩ := p
      simp only [List.map_cons, List.nodup_cons] at hnd
      by_cases hak : a = k
      · subst hak
        cases ov with
        | none =>
            have h1 : dropna ((a, (none : Option Value)) :: t) = dropna t := rfl
            have h2 : alookup a ((a, (none : Option Value)) :: t) = some none := by simp
            rw [h1, h2]
            show alookup a (dropna t) = none
            rw [alookup_eq_none_iff]
            intro q hq hq1
            exact hnd.1 (by rw [← hq1]; exact dropna_keys_sub hq)
        | some w => simp [dropna]
      · cases ov with
        | none => simp [dropna, hak, ih hnd.2]
        | some w => simp [dropna, hak, ih hnd.2]

theorem eraseKey_cons_eq {α : Type} {a k : String} (b : α) (t : List (String × α))
    (h : a = k) : eraseKey ((a, b) :: t) k = eraseKey t k := by
  simp [eraseKey, h]

theorem eraseKey_cons_ne {α : Type} {a k : String} (b : α) (t : List (String × α))
    (h : ¬ a = k) : eraseKey ((a, b) :: t) k = (a, b) :: eraseKey t k := by
  simp [eraseKey, h]

theorem alookup_eraseKey {α : Type} (d : List (String × α)) (k x : String) :
    alookup x (eraseKey d k) = if x = k then none else alookup x d := by
  induction d with
  | nil => simp [eraseKey]
  | cons p t ih =>
      obtain ⟨a, b⟩ := p
      by_cases hak : a = k
      · rw [eraseKey_cons_eq b t hak, ih]
        by_cases hx : x = k
        · simp [hx]
        · have hax : ¬ a = x := by
            intro h
            exact hx (by rw [← h, hak])
          simp [hx, hax]
      · rw [eraseKey_cons_ne b t hak]
        by_cases hax : a = x
        · subst hax
          have hxk : ¬ a = k := hak
          simp [hxk]
        · simp [hax, ih]

theorem mem_eraseKey {α : Type} {d : List (String × α)} {k : String} {p : String × α} :
    p ∈ eraseKey d k ↔ p ∈ d ∧ p.1 ≠ k := by
  induction d with
  | nil => simp [eraseKey]
  | cons q t ih =>
      obtain ⟨a, b⟩ := q
      by_cases hak : a = k
      · rw [eraseKey_cons_eq b t hak]
        rw [ih]
        simp only [List.mem_cons]
        constructor
        · rintro ⟨h1, h2⟩
          exact ⟨Or.inr h1, h2⟩
        · rintro ⟨h1 | h1, h2⟩
          · rw [h1] at h2
            simp [hak] at h2
          · exact ⟨h1, h2⟩
      · rw [eraseKey_cons_ne b t hak]
        simp only [List.mem_cons, ih]
        constructor
        · rintro (h | ⟨h1, h2⟩)
          · subst h
            exact ⟨Or.inl rfl, hak⟩
          · exact ⟨Or.inr h1, h2⟩
        · rintro ⟨h1 | h1, h2⟩
          · exact Or.inl h1
          · exact Or.inr ⟨h1, h2⟩

theorem eraseKey_sublist {α : Type} (d : List (String × α)) (k : String) :
    (eraseKey d k).Sublist d := by
  induction d with
  | nil => simp [eraseKey]
  | cons p t ih =>
      obtain ⟨a, b⟩ := p
      by_cases hak : a = k
      · rw [eraseKey_cons_eq b t hak]
        exact ih.cons (a, b)
      · rw [eraseKey_cons_ne b t hak]
        exact ih.cons₂ (a, b)

theorem eraseKey_nodup {α : Type} {d : List (String × α)} {k : String}
    (h : (d.map Prod.fst).Nodup) : ((eraseKey d k).map Prod.fst).Nodup :=
  ((eraseKey_sublist d k).map Prod.fst).nodup h

/-! ### String scoping lemmas -/

theorem string_data_inj {s t : String} (h : s.data = t.data) : s = t := by
  cases s
  cases t
  exact congrArg String.mk h

theorem string_append_data (s t : String) : (s ++ t).data = s.data ++ t.data := by
  cases s
  cases t
  rfl

theorem scoped_data (t k : String) :
    (t ++ "." ++ k).data = t.data ++ '.' :: k.data := by
  rw [string_append_data, string_append_data]
  have hdot : (("." : String)).data = ['.'] := by decide
  simp [hdot]

theorem dot_mem_scoped (t k : String) : '.' ∈ (t ++ "." ++ k).data := by
  rw [scoped_data]
  simp

theorem scoped_inj_right {t a b : String} (h : t ++ "." ++ a = t ++ "." ++ b) : a = b := by
  have hd : (t ++ "." ++ a).data = (t ++ "." ++ b).data := by rw [h]
  rw [scoped_data, scoped_data] at hd
  have := List.append_cancel_left hd
  exact string_data_inj (by injection this)

theorem last_dot_block {k1 k2 : List Char} (h1 : '.' ∉ k1) (h2 : '.' ∉ k2) :
    ∀ {l1 l2 : List Char}, l1 ++ '.' :: k1 = l2 ++ '.' :: k2 → l1 = l2 ∧ k1 = k2 := by
  intro l1
  induction l1 with
  | nil =>
      intro l2 h
      cases l2 with
      | nil =>
          simp only [List.nil_append] at h
          injection h with _ h
          exact ⟨rfl, h⟩
      | cons c l2' =>
          simp only [List.nil_append, List.cons_append] at h
          injection h with hc h
          have hm : '.' ∈ k1 := by
            rw [h]
            exact List.mem_append_right l2' (List.mem_cons_self _ _)
          exact absurd hm h1
  | cons a l1' ih =>
      intro l2 h
      cases l2 with
      | nil =>
          simp only [List.cons_append, List.nil_append] at h
          injection h with hc h
          have hm : '.' ∈ k2 := by
            rw [← h]
            exact List.mem_append_right l1' (List.mem_cons_self _ _)
          exact absurd hm h2
      | cons c l2' =>
          simp only [List.cons_append] at h
          injection h with hc h
          obtain ⟨hl, hk⟩ := ih h
          exact ⟨by rw [hc, hl], hk⟩

theorem scoped_eq_scoped {tA tB a b : String}
    (ha : '.' ∉ a.data) (hb : '.' ∉ b.data)
    (h : tA ++ "." ++ a = tB ++ "." ++ b) : tA = tB ∧ a = b := by
  have hd : (tA ++ "." ++ a).data = (tB ++ "." ++ b).data := by rw [h]
  rw [scoped_data, scoped_data] at hd
  obtain ⟨h1, h2⟩ := last_dot_block ha hb hd
  exact ⟨string_data_inj h1, string_data_inj h2⟩

theorem unscoped_ne_scoped {x t k : String} (hx : '.' ∉ x.data) :
    x ≠ t ++ "." ++ k := by
  intro h
  rw [h] at hx
  exact hx (dot_mem_scoped t k)

/-! ### Scoping-map lemmas -/

theorem alookup_scopeKeys_iff {t : String} {d : Doc} {x : String} {v : Value} :
    alookup x (scopeKeys t d) = some v ↔ ∃ c, x = t ++ "." ++ c ∧ alookup c d = some v := by
  induction d with
  | nil => simp [scopeKeys]
  | cons p tl ih =>
      obtain ⟨a, b⟩ := p
      simp only [scopeKeys, List.map_cons] at ih ⊢
      by_cases hax : t ++ "." ++ a = x
      · subst hax
        simp only [alookup_cons, if_pos rfl]
        constructor
        · intro h
          injection h with h
          exact ⟨a, rfl, by simp [h]⟩
        · rintro ⟨c, hc, hl⟩
          have : a = c := scoped_inj_right hc
          subst this
          simp at hl
          simp [hl]
      · simp only [alookup_cons, if_neg hax, ih]
        constructor
        · rintro ⟨c, hc, hl⟩
          refine ⟨c, hc, ?_⟩
          have hac : ¬ a = c := by
            intro h
            exact hax (by rw [h, ← hc])
          simpa [hac] using hl
        · rintro ⟨c, hc, hl⟩
          refine ⟨c, hc, ?_⟩
          have hac : ¬ a = c := by
            intro h
            exact hax (by rw [h, ← hc])
          simpa [hac] using hl

theorem scopeName_inj {t sid : String} (hsid : '.' ∉ sid.data) {a b : String}
    (h : scopeName t sid a = scopeName t sid b) : a = b := by
  unfold scopeName at h
  by_cases hA : a = sid <;> by_cases hB : b = sid
  · rw [hA, hB]
  · rw [if_pos hA, if_neg hB] at h
    subst hA
    exact absurd h (unscoped_ne_scoped hsid)
  · rw [if_neg hA, if_pos hB] at h
    subst hB
    exact absurd h.symm (unscoped_ne_scoped hsid)
  · rw [if_neg hA, if_neg hB] at h
    exact scoped_inj_right h

theorem alookup_scopeKeysExcept_iff {t sid : String} (hsid : '.' ∉ sid.data)
    {d : Doc} {x : String} {v : Value} :
    alookup x (scopeKeysExcept t sid d) = some v ↔
      ∃ c, x = scopeName t sid c ∧ alookup c d = some v := by
  induction d with
  | nil => simp [scopeKeysExcept]
  | cons p tl ih =>
      obtain ⟨a, b⟩ := p
      simp only [scopeKeysExcept, List.map_cons] at ih ⊢
      by_cases hax : scopeName t sid a = x
      · subst hax
        simp only [alookup_cons, if_pos rfl]
        constructor
        · intro h
          injection h with h
          exact ⟨a, rfl, by simp [h]⟩
        · rintro ⟨c, hc, hl⟩
          have : a = c := scopeName_inj hsid hc
          subst this
          simp at hl
          simp [hl]
      · simp only [alookup_cons, if_neg hax, ih]
        constructor
        · rintro ⟨c, hc, hl⟩
          refine ⟨c, hc, ?_⟩
          have hac : ¬ a = c := by
            intro h
            exact hax (by rw [h, ← hc])
          simpa [hac] using hl
        · rintro ⟨c, hc, hl⟩
          refine ⟨c, hc, ?_⟩
          have hac : ¬ a = c := by
            intro h
            exact hax (by rw [h, ← hc])
          simpa [hac] using hl

/-! ### UPDATE_SAMPLES_SCRIPT lemmas -/

theorem findRemoveIdx_cons_reduce (sid : String) (pv : Option Value) (d : Doc)
    (t : List Doc) (i : Nat) (b : Bool) (r : Option Nat)
    (hb : painlessEq (alookup sid d) pv = Except.ok b)
    (hr : findRemoveIdx sid pv t (i + 1) = Except.ok r) :
    findRemoveIdx sid pv (d :: t) i = Except.ok (scanStep b i r) := by
  simp only [findRemoveIdx, hb, hr]
  cases r <;> rfl

theorem findRemoveIdx_spec (sid : String) (v : Value) {l : List Doc}
    (hall : ∀ d ∈ l, (alookup sid d).isSome) (n : Nat) :
    findRemoveIdx sid (some v) l n =
      Except.ok ((lastMatchIdx sid v l).map (fun j => j + n)) := by
  induction l generalizing n with
  | nil => simp [findRemoveIdx, lastMatchIdx]
  | cons d t ih =>
      obtain ⟨a, ha⟩ := Option.isSome_iff_exists.mp (hall d (List.mem_cons_self _ _))
      have ht : ∀ q ∈ t, (alookup sid q).isSome := fun q hq =>
        hall q (List.mem_cons_of_mem _ hq)
      have hb : painlessEq (alookup sid d) (some v) = Except.ok (decide (a = v)) := by
        rw [ha]
        rfl
      rw [findRemoveIdx_cons_reduce sid (some v) d t n (decide (a = v)) _ hb (ih ht (n + 1))]
      cases hm : lastMatchIdx sid v t with
      | some j =>
          have harith : j + (n + 1) = j + 1 + n := by omega
          simp [lastMatchIdx, hm, harith, scanStep]
      | none =>
          simp only [hm, Option.map_none']
          simp only [lastMatchIdx, hm]
          by_cases hav : a = v
          · subst hav
            rw [if_pos ha]
            simp [scanStep]
          · have hne : ¬ alookup sid d = some v := by
              rw [ha]
              intro hx
              injection hx with hx
              exact hav hx
            rw [if_neg hne]
            simp [scanStep, hav]

theorem lastMatchIdx_lt {sid : String} {v : Value} {l : List Doc} {i : Nat}
    (h : lastMatchIdx sid v l = some i) : i < l.length := by
  induction l generalizing i with
  | nil => cases h
  | cons d t ih =>
      simp only [lastMatchIdx] at h
      cases hm : lastMatchIdx sid v t with
      | some j =>
          rw [hm] at h
          injection h with h
          subst h
          exact Nat.succ_lt_succ (ih hm)
      | none =>
          rw [hm] at h
          by_cases hd : alookup sid d = some v
          · rw [if_pos hd] at h
            injection h with h
            subst h
            simp
          · rw [if_neg hd] at h
            cases h

theorem lastMatchIdx_matches {sid : String} {v : Value} {l : List Doc} {i : Nat}
    (h : lastMatchIdx sid v l = some i) : alookup sid (l.getD i []) = some v := by
  induction l generalizing i with
  | nil => cases h
  | cons d t ih =>
      simp only [lastMatchIdx] at h
      cases hm : lastMatchIdx sid v t with
      | some j =>
          rw [hm] at h
          injection h with h
          subst h
          simpa using ih hm
      | none =>
          rw [hm] at h
          by_cases hd : alookup sid d = some v
          · rw [if_pos hd] at h
            injection h with h
            subst h
            simpa using hd
          · rw [if_neg hd] at h
            cases h

theorem lastMatchIdx_none {sid : String} {v : Value} {l : List Doc}
    (h : lastMatchIdx sid v l = none) :
    ∀ j, j < l.length → alookup sid (l.getD j []) ≠ some v := by
  induction l with
  | nil => intro j hj; simp at hj
  | cons d t ih =>
      simp only [lastMatchIdx] at h
      cases hm : lastMatchIdx sid v t with
      | some j => rw [hm] at h; cases h
      | none =>
          rw [hm] at h
          intro j hj
          cases j with
          | zero =>
              by_cases hd : alookup sid d = some v
              · rw [if_pos hd] at h; cases h
              · simpa using hd
          | succ j' =>
              have hj' : j' < t.length := by simpa using hj
              simpa using ih hm j' hj'

theorem lastMatchIdx_last {sid : String} {v : Value} {l : List Doc} {i : Nat}
    (h : lastMatchIdx sid v l = some i) :
    ∀ j, i < j → j < l.length → alookup sid (l.getD j []) ≠ some v := by
  induction l generalizing i with
  | nil => cases h
  | cons d t ih =>
      simp only [lastMatchIdx] at h
      cases hm : lastMatchIdx sid v t with
      | some j0 =>
          rw [hm] at h
          injection h with h
          subst h
          intro j hij hjl
          cases j with
          | zero => omega
          | succ j' =>
              have h1 : j0 < j' := by omega
              have h2 : j' < t.length := by simpa using hjl
              simpa using ih hm j' h1 h2
      | none =>
          rw [hm] at h
          by_cases hd : alookup sid d = some v
          · rw [if_pos hd] at h
            injection h with h
            subst h
            intro j hij hjl
            cases j with
            | zero => omega
            | succ j' =>
                have h2 : j' < t.length := by simpa using hjl
                simpa using lastMatchIdx_none hm j' h2
          · rw [if_neg hd] at h
            cases h

theorem lastMatchIdx_isSome_of_mem {sid : String} {v : Value} {l : List Doc}
    {d : Doc} (hd : d ∈ l) (hm : alookup sid d = some v) :
    ∃ i, lastMatchIdx sid v l = some i := by
  induction l with
  | nil => simp at hd
  | cons a t ih =>
      simp only [lastMatchIdx]
      cases hmt : lastMatchIdx sid v t with
      | some j => exact ⟨j + 1, rfl⟩
      | none =>
          rcases List.mem_cons.mp hd with h1 | h2
          · subst h1
            rw [if_pos hm]
            exact ⟨0, rfl⟩
          · obtain ⟨i, hi⟩ := ih h2
            rw [hmt] at hi
            cases hi

theorem updateSamples_found (sid : String) (l : List Doc) (p : Doc) (i : Nat)
    (h : findRemoveIdx sid (alookup sid p) l 0 = Except.ok (some i)) :
    updateSamples sid (some l) p =
      Except.ok (some ((l.eraseIdx i) ++ [putAll (l.getD i []) p])) := by
  simp only [updateSamples, h]
  rfl

theorem updateSamples_notFound (sid : String) (l : List Doc) (p : Doc)
    (h : findRemoveIdx sid (alookup sid p) l 0 = Except.ok none) :
    updateSamples sid (some l) p = Except.ok (some (l ++ [p])) := by
  simp only [updateSamples, h]
  rfl

/-- The single-element invariant: updating a one-element samples array whose
element carries the right sample ID merges in place. -/
theorem updateSamples_singleton {sid : String} {v : Value} {m p : Doc}
    (hm : alookup sid m = some v) (hp : alookup sid p = some v) :
    updateSamples sid (some [m]) p = Except.ok (some [putAll m p]) := by
  have hall : ∀ d ∈ [m], (alookup sid d).isSome := by
    intro d hd
    rcases List.mem_singleton.mp hd with rfl
    simp [hm]
  have hidx : lastMatchIdx sid v [m] = some 0 := by
    simp [lastMatchIdx, hm]
  have hfind : findRemoveIdx sid (alookup sid p) [m] 0 = Except.ok (some 0) := by
    rw [hp, findRemoveIdx_spec sid v hall 0, hidx]
    rfl
  rw [updateSamples_found sid [m] p 0 hfind]
  rfl

theorem alookup_putAll_nodup {sid : String} {v : Value} {m p : Doc}
    (hnd : (p.map Prod.fst).Nodup) (hm : alookup sid m = some v)
    (hp : (alookup sid p).isSome → alookup sid p = some v) :
    alookup sid (putAll m p) = some v := by
  rw [alookup_putAll, lastLookup_eq_alookup_nodup hnd]
  cases hll : alookup sid p with
  | some w =>
      have := hp (by simp [hll])
      rw [hll] at this
      injection this with this
      simp [this]
  | none => simp [hm]

theorem applySampleOps_singleton {sid : String} {v : Value} {ops : List Doc}
    (hsid : ∀ d ∈ ops, alookup sid d = some v)
    (hnd : ∀ d ∈ ops, (d.map Prod.fst).Nodup) :
    ∀ m : Doc, alookup sid m = some v →
      applySampleOps sid (some [m]) ops = Except.ok (some [ops.foldl putAll m]) := by
  induction ops with
  | nil =>
      intro m _
      rfl
  | cons p t ih =>
      intro m hm
      have hp : alookup sid p = some v := hsid p (List.mem_cons_self _ _)
      have ht : ∀ d ∈ t, alookup sid d = some v := fun d hd =>
        hsid d (List.mem_cons_of_mem _ hd)
      have htn : ∀ d ∈ t, (d.map Prod.fst).Nodup := fun d hd =>
        hnd d (List.mem_cons_of_mem _ hd)
      have hmerge : alookup sid (putAll m p) = some v :=
        alookup_putAll_nodup (hnd p (List.mem_cons_self _ _)) hm (fun _ => hp)
      have hstep : applySampleOps sid (some [m]) (p :: t) =
          applySampleOps sid (some [putAll m p]) t := by
        show (updateSamples sid (some [m]) p).bind (fun s => applySampleOps sid s t) =
          applySampleOps sid (some [putAll m p]) t
        rw [updateSamples_singleton hm hp]
        rfl
      rw [hstep, ih ht htn (putAll m p) hmerge]
      rfl

theorem lastWrite_cons (k : String) (d : Doc) (t : List Doc) :
    lastWrite k (d :: t) = oor (lastWrite k t) (lastLookup k d) := by
  simp only [lastWrite]
  cases lastWrite k t <;> rfl

theorem lastWrite_const {sid : String} {v : Value} :
    ∀ {ops : List Doc}, ops ≠ [] → (∀ d ∈ ops, lastLookup sid d = some v) →
      lastWrite sid ops = some v := by
  intro ops
  induction ops with
  | nil =>
      intro h
      exact absurd rfl h
  | cons p t ih =>
      intro _ h
      have hp := h p (List.mem_cons_self _ _)
      rw [lastWrite_cons]
      cases t with
      | nil => simp [lastWrite, hp]
      | cons q t' =>
          rw [ih (by simp) (fun d hd => h d (List.mem_cons_of_mem _ hd))]
          rfl

/-- From a fresh document (no `samples` key), applying merge operations that
all carry the same sample ID yields a single-element samples array holding
their left fold. -/
theorem applySampleOps_fresh {sid : String} {v : Value} {ops : List Doc}
    (hne : ops ≠ [])
    (hsid : ∀ d ∈ ops, alookup sid d = some v)
    (hnd : ∀ d ∈ ops, (d.map Prod.fst).Nodup) :
    applySampleOps sid none ops = Except.ok (some [mergeOps ops]) := by
  cases ops with
  | nil => exact absurd rfl hne
  | cons p t =>
      have hp : alookup sid p = some v := hsid p (List.mem_cons_self _ _)
      have hstep : applySampleOps sid none (p :: t) = applySampleOps sid (some [p]) t := rfl
      rw [hstep]
      exact applySampleOps_singleton (fun d hd => hsid d (List.mem_cons_of_mem _ hd))
        (fun d hd => hnd d (List.mem_cons_of_mem _ hd)) p hp

theorem alookup_mergeOps_eq_lastWrite {ops : List Doc} (hne : ops ≠ [])
    (hnd : ∀ d ∈ ops, (d.map Prod.fst).Nodup) (k : String) :
    alookup k (mergeOps ops) = lastWrite k ops := by
  cases ops with
  | nil => exact absurd rfl hne
  | cons p t =>
      show alookup k (t.foldl putAll p) = lastWrite k (p :: t)
      rw [alookup_foldl_putAll, lastWrite_cons,
        lastLookup_eq_alookup_nodup (hnd p (List.mem_cons_self _ _))]

/-- C1: for every nonempty sequence of merge operations carrying the same
sub-entity (sample) ID — as produced by `_sample_scripts_by_id` from rows that
share that sample-ID value (such payloads always contain the unscoped sample-ID
field and have distinct keys) — applying them in order via the
`UPDATE_SAMPLES_SCRIPT` semantics leaves the samples array with exactly one
element for that sample ID; its fields are the union of the fields contributed
by the operations, a later write to the same field name overwriting the earlier
value (`lastWrite`); no duplicate element is ever created (every intermediate
state is also the one-element array of the merged prefix). -/
theorem c1_sample_merge_union (sid : String) (v : Value) (ops : List Doc)
    (hne : ops ≠ [])
    (hsid : ∀ d ∈ ops, alookup sid d = some v)
    (hnd : ∀ d ∈ ops, (d.map Prod.fst).Nodup) :
    applySampleOps sid none ops = Except.ok (some [mergeOps ops]) ∧
    alookup sid (mergeOps ops) = some v ∧
    (∀ k, alookup k (mergeOps ops) = lastWrite k ops) ∧
    (∀ pre suf, ops = pre ++ suf → pre ≠ [] →
      applySampleOps sid none pre = Except.ok (some [mergeOps pre])) := by
  refine ⟨applySampleOps_fresh hne hsid hnd, ?_, alookup_mergeOps_eq_lastWrite hne hnd, ?_⟩
  · rw [alookup_mergeOps_eq_lastWrite hne hnd]
    exact lastWrite_const hne (fun d hd => by
      rw [lastLookup_eq_alookup_nodup (hnd d hd)]
      exact hsid d hd)
  · intro pre suf heq hpre
    have hmem : ∀ d ∈ pre, d ∈ ops := by
      intro d hd
      rw [heq]
      exact List.mem_append_left _ hd
    exact applySampleOps_fresh hpre (fun d hd => hsid d (hmem d hd))
      (fun d hd => hnd d (hmem d hd))

theorem c1_witness :
    (([[("sid", Value.vStr "S1"), ("t1.a", Value.vInt 1)],
       [("sid", Value.vStr "S1"), ("t2.b", Value.vInt 2)],
       [("sid", Value.vStr "S1"), ("t1.a", Value.vInt 3)]] : List Doc) ≠ []) ∧
    applySampleOps "sid" none
      [[("sid", Value.vStr "S1"), ("t1.a", Value.vInt 1)],
       [("sid", Value.vStr "S1"), ("t2.b", Value.vInt 2)],
       [("sid", Value.vStr "S1"), ("t1.a", Value.vInt 3)]] =
      Except.ok (some [mergeOps
        [[("sid", Value.vStr "S1"), ("t1.a", Value.vInt 1)],
         [("sid", Value.vStr "S1"), ("t2.b", Value.vInt 2)],
         [("sid", Value.vStr "S1"), ("t1.a", Value.vInt 3)]]]) ∧
    alookup "t1.a" (mergeOps
      [[("sid", Value.vStr "S1"), ("t1.a", Value.vInt 1)],
       [("sid", Value.vStr "S1"), ("t2.b", Value.vInt 2)],
       [("sid", Value.vStr "S1"), ("t1.a", Value.vInt 3)]]) =
      lastWrite "t1.a"
        [[("sid", Value.vStr "S1"), ("t1.a", Value.vInt 1)],
         [("sid", Value.vStr "S1"), ("t2.b", Value.vInt 2)],
         [("sid", Value.vStr "S1"), ("t1.a", Value.vInt 3)]] := by
  have h := c1_sample_merge_union "sid" (Value.vStr "S1")
    [[("sid", Value.vStr "S1"), ("t1.a", Value.vInt 1)],
     [("sid", Value.vStr "S1"), ("t2.b", Value.vInt 2)],
     [("sid", Value.vStr "S1"), ("t1.a", Value.vInt 3)]]
    (by decide) (by decide) (by decide)
  exact ⟨by decide, h.1, h.2.2.1 "t1.a"⟩

/-- C10: whenever the incoming merge operation's sample ID matches an existing
element of the samples array (the scan picking the last matching index), the
script removes the matched element from its position and appends the merged
element at the end: afterwards the updated sub-entity is the last array
element, and the relative order of the other elements (take before the index,
drop after) is preserved. -/
theorem c10_update_moves_matched_to_end (sid : String) (v : Value) (l : List Doc) (p : Doc)
    (hp : alookup sid p = some v)
    (hpn : (p.map Prod.fst).Nodup)
    (hall : ∀ d ∈ l, (alookup sid d).isSome)
    (hex : ∃ d ∈ l, alookup sid d = some v) :
    ∃ i, i < l.length ∧
      alookup sid (l.getD i []) = some v ∧
      (∀ j, i < j → j < l.length → alookup sid (l.getD j []) ≠ some v) ∧
      updateSamples sid (some l) p =
        Except.ok (some (l.take i ++ l.drop (i + 1) ++ [putAll (l.getD i []) p])) ∧
      alookup sid (putAll (l.getD i []) p) = some v := by
  obtain ⟨d, hd, hdv⟩ := hex
  obtain ⟨i, hi⟩ := lastMatchIdx_isSome_of_mem hd hdv
  refine ⟨i, lastMatchIdx_lt hi, lastMatchIdx_matches hi, lastMatchIdx_last hi, ?_, ?_⟩
  · have hfind : findRemoveIdx sid (alookup sid p) l 0 = Except.ok (some i) := by
      rw [hp, findRemoveIdx_spec sid v hall 0, hi]
      simp
    rw [updateSamples_found sid l p i hfind, List.eraseIdx_eq_take_drop_succ]
  · exact alookup_putAll_nodup hpn (lastMatchIdx_matches hi) (fun _ => hp)

theorem c10_witness :
    alookup "sid" [("sid", Value.vStr "S1"), ("x", Value.vInt 5)] = some (Value.vStr "S1") ∧
    (([("sid", Value.vStr "S1"), ("x", Value.vInt 5)].map
      (Prod.fst (α := String) (β := Value))).Nodup) ∧
    (∀ d ∈ [[("sid", Value.vStr "S1")], [("sid", Value.vStr "S2")]],
      (alookup "sid" d).isSome) ∧
    (∃ d ∈ [[("sid", Value.vStr "S1")], [("sid", Value.vStr "S2")]],
      alookup "sid" d = some (Value.vStr "S1")) ∧
    (∃ i, i < ([[("sid", Value.vStr "S1")], [("sid", Value.vStr "S2")]] : List Doc).length ∧
      alookup "sid" ([[("sid", Value.vStr "S1")], [("sid", Value.vStr "S2")]].getD i []) =
        some (Value.vStr "S1") ∧
      (∀ j, i < j → j < ([[("sid", Value.vStr "S1")], [("sid", Value.vStr "S2")]] : List Doc).length →
        alookup "sid" ([[("sid", Value.vStr "S1")], [("sid", Value.vStr "S2")]].getD j []) ≠
          some (Value.vStr "S1")) ∧
      updateSamples "sid" (some [[("sid", Value.vStr "S1")], [("sid", Value.vStr "S2")]])
          [("sid", Value.vStr "S1"), ("x", Value.vInt 5)] =
        Except.ok (some ([[("sid", Value.vStr "S1")], [("sid", Value.vStr "S2")]].take i ++
          [[("sid", Value.vStr "S1")], [("sid", Value.vStr "S2")]].drop (i + 1) ++
          [putAll ([[("sid", Value.vStr "S1")], [("sid", Value.vStr "S2")]].getD i [])
            [("sid", Value.vStr "S1"), ("x", Value.vInt 5)]])) ∧
      alookup "sid" (putAll ([[("sid", Value.vStr "S1")], [("sid", Value.vStr "S2")]].getD i [])
        [("sid", Value.vStr "S1"), ("x", Value.vInt 5)]) = some (Value.vStr "S1")) := by
  refine ⟨by decide, by decide, by decide, ⟨[("sid", Value.vStr "S1")], by decide, by decide⟩, ?_⟩
  exact c10_update_moves_matched_to_end "sid" (Value.vStr "S1")
    [[("sid", Value.vStr "S1")], [("sid", Value.vStr "S2")]]
    [("sid", Value.vStr "S1"), ("x", Value.vInt 5)]
    (by decide) (by decide) (by decide)
    ⟨[("sid", Value.vStr "S1")], by decide, by decide⟩

theorem mem_unique_nodup {α : Type} {l : List (String × α)}
    (hnd : (l.map Prod.fst).Nodup) {k : String} {a b : α}
    (ha : (k, a) ∈ l) (hb : (k, b) ∈ l) : a = b := by
  have h1 := mem_alookup_nodup hnd ha
  have h2 := mem_alookup_nodup hnd hb
  rw [h1] at h2
  exact Option.some.inj h2

/-- The success case of `docs_by_id_row`, decomposed. -/
theorem docs_by_id_row_ok {t pid : String} {row : Row} {idv : Value} {d : Doc}
    (hok : docs_by_id_row t pid row = Except.ok (idv, d)) :
    alookup pid (dropna row) = some idv ∧ d = scopeKeys t (eraseKey (dropna row) pid) := by
  unfold docs_by_id_row at hok
  cases h : alookup pid (dropna row) with
  | none =>
      rw [h] at hok
      cases hok
  | some w =>
      rw [h] at hok
      injection hok with hok
      injection hok with h1 h2
      subst h1
      exact ⟨rfl, h2.symm⟩

/-- C2: for every row on which `_docs_by_id` yields a pair, the pair's first
component is the value of the entity-ID column; every null column of the row is
entirely absent from the document (its scoped key does not occur); the
entity-ID column appears neither scoped nor under its own name; every document
field is a `<table>.`-scoped non-ID column of the row carrying that column's
value; and every present non-ID column does appear scoped with its value. -/
theorem c2_docs_by_id_shape (t pid : String) (row : Row) (idv : Value) (d : Doc)
    (hok : docs_by_id_row t pid row = Except.ok (idv, d))
    (hnd : (row.map Prod.fst).Nodup)
    (hpdot : '.' ∉ pid.data) :
    (pid, some idv) ∈ row ∧
    (∀ c, (c, (none : Option Value)) ∈ row → alookup (t ++ "." ++ c) d = none) ∧
    alookup (t ++ "." ++ pid) d = none ∧
    alookup pid d = none ∧
    (∀ k v, alookup k d = some v →
      ∃ c, k = t ++ "." ++ c ∧ c ≠ pid ∧ (c, some v) ∈ row) ∧
    (∀ c v, (c, some v) ∈ row → c ≠ pid → alookup (t ++ "." ++ c) d = some v) := by
  obtain ⟨hpd, hd⟩ := docs_by_id_row_ok hok
  subst hd
  have hcore : ∀ k v, alookup k (scopeKeys t (eraseKey (dropna row) pid)) = some v →
      ∃ c, k = t ++ "." ++ c ∧ c ≠ pid ∧ (c, some v) ∈ row := by
    intro k v hv
    obtain ⟨c, hc, hl⟩ := alookup_scopeKeys_iff.mp hv
    rw [alookup_eraseKey] at hl
    by_cases hcp : c = pid
    · rw [if_pos hcp] at hl
      cases hl
    · rw [if_neg hcp] at hl
      exact ⟨c, hc, hcp, mem_dropna.mp (alookup_mem hl)⟩
  refine ⟨mem_dropna.mp (alookup_mem hpd), ?_, ?_, ?_, hcore, ?_⟩
  · intro c hcn
    cases hv : alookup (t ++ "." ++ c) (scopeKeys t (eraseKey (dropna row) pid)) with
    | none => rfl
    | some v =>
        obtain ⟨c', hc', hcp', hmem'⟩ := hcore _ _ hv
        have hcc : c = c' := scoped_inj_right hc'
        subst hcc
        cases mem_unique_nodup hnd hmem' hcn
  · cases hv : alookup (t ++ "." ++ pid) (scopeKeys t (eraseKey (dropna row) pid)) with
    | none => rfl
    | some v =>
        obtain ⟨c', hc', hcp', _⟩ := hcore _ _ hv
        exact absurd (scoped_inj_right hc').symm hcp'
  · cases hv : alookup pid (scopeKeys t (eraseKey (dropna row) pid)) with
    | none => rfl
    | some v =>
        obtain ⟨c', hc', _, _⟩ := hcore _ _ hv
        exact absurd hc' (unscoped_ne_scoped hpdot)
  · intro c v hmem hcp
    apply alookup_scopeKeys_iff.mpr
    refine ⟨c, rfl, ?_⟩
    rw [alookup_eraseKey, if_neg hcp]
    exact mem_alookup_nodup (dropna_nodup hnd) (mem_dropna.mpr hmem)

theorem c2_witness :
    docs_by_id_row "proj.ds.weight" "pid"
        [("pid", some (Value.vStr "P1")), ("w", none), ("v", some (Value.vInt 70))] =
      Except.ok (Value.vStr "P1", [("proj.ds.weight.v", Value.vInt 70)]) ∧
    ((([("pid", some (Value.vStr "P1")), ("w", none), ("v", some (Value.vInt 70))] : Row).map
      Prod.fst).Nodup) ∧
    '.' ∉ ("pid" : String).data ∧
    ("pid", some (Value.vStr "P1")) ∈
      ([("pid", some (Value.vStr "P1")), ("w", none), ("v", some (Value.vInt 70))] : Row) ∧
    alookup ("proj.ds.weight" ++ "." ++ "w") [("proj.ds.weight.v", Value.vInt 70)] = none ∧
    alookup "pid" [("proj.ds.weight.v", Value.vInt 70)] = none ∧
    alookup ("proj.ds.weight" ++ "." ++ "v") [("proj.ds.weight.v", Value.vInt 70)] =
      some (Value.vInt 70) := by
  have h := c2_docs_by_id_shape "proj.ds.weight" "pid"
    [("pid", some (Value.vStr "P1")), ("w", none), ("v", some (Value.vInt 70))]
    (Value.vStr "P1") [("proj.ds.weight.v", Value.vInt 70)]
    (by rfl) (by decide) (by decide)
  exact ⟨by rfl, by decide, by decide, h.1, h.2.1 "w" (by decide), h.2.2.2.1,
    h.2.2.2.2.2 "v" (Value.vInt 70) (by decide) (by decide)⟩

theorem lastLookup_isSome_iff (k : String) (d : Doc) :
    (lastLookup k d).isSome = (alookup k d).isSome := by
  cases hl : lastLookup k d with
  | none =>
      rw [(alookup_eq_none_iff k d).mpr ((lastLookup_eq_none_iff k d).mp hl)]
  | some w =>
      cases ha : alookup k d with
      | none =>
          rw [(lastLookup_eq_none_iff k d).mpr ((alookup_eq_none_iff k d).mp ha)] at hl
          cases hl
      | some w' => rfl

theorem oor_isSome {α : Type} (a b : Option α) :
    (oor a b).isSome = (a.isSome || b.isSome) := by
  cases a <;> simp [oor]

/-- Keys of a `_docs_by_id` document are all scoped with the table name and a
dot-free column. -/
theorem docs_by_id_keys_scoped {t pid : String} {row : Row} {idv : Value} {d : Doc}
    (hok : docs_by_id_row t pid row = Except.ok (idv, d))
    (hdot : ∀ p ∈ row, '.' ∉ (p.1 : String).data) :
    ∀ k, (alookup k d).isSome → ∃ c, k = t ++ "." ++ c ∧ '.' ∉ c.data := by
  obtain ⟨hpd, hd⟩ := docs_by_id_row_ok hok
  subst hd
  intro k hk
  obtain ⟨v, hv⟩ := Option.isSome_iff_exists.mp hk
  obtain ⟨c, hc, hl⟩ := alookup_scopeKeys_iff.mp hv
  have hcrow : c ∈ row.map Prod.fst := by
    have hmem := alookup_mem hl
    exact dropna_keys_sub (mem_eraseKey.mp hmem).1
  obtain ⟨p, hp, hp1⟩ := List.mem_map.mp hcrow
  exact ⟨c, hc, hp1 ▸ hdot p hp⟩

theorem putAll_comm_disjoint {dA dB : Doc}
    (hdisj : ∀ k, (alookup k dA).isSome → (alookup k dB).isSome → False)
    (e : Doc) (k : String) :
    alookup k (putAll (putAll e dA) dB) = alookup k (putAll (putAll e dB) dA) := by
  rw [alookup_putAll, alookup_putAll, alookup_putAll, alookup_putAll]
  cases hA : lastLookup k dA with
  | none => cases hB : lastLookup k dB <;> simp [oor]
  | some w =>
      cases hB : lastLookup k dB with
      | none => simp [oor]
      | some w' =>
          exfalso
          have h1 : (alookup k dA).isSome := by
            rw [← lastLookup_isSome_iff, hA]
            rfl
          have h2 : (alookup k dB).isSome := by
            rw [← lastLookup_isSome_iff, hB]
            rfl
          exact hdisj k h1 h2

/-- C3: for two rows of differently named tables (with dot-free column names),
applying the `_docs_by_id` documents of table A then table B as top-level
partial updates to any entity document gives the same result, field by field,
as applying B's then A's; the result holds the union of both tables' scoped
fields (and the previous fields), because the table scoping makes their key
sets disjoint. -/
theorem c3_docs_by_id_order_independent (tA tB pid : String) (rA rB : Row)
    (e : Doc) (va vb : Value) (dA dB : Doc)
    (hne : tA ≠ tB)
    (hdA : ∀ p ∈ rA, '.' ∉ (p.1 : String).data)
    (hdB : ∀ p ∈ rB, '.' ∉ (p.1 : String).data)
    (hA : docs_by_id_row tA pid rA = Except.ok (va, dA))
    (hB : docs_by_id_row tB pid rB = Except.ok (vb, dB)) :
    ∀ k, alookup k (putAll (putAll e dA) dB) = alookup k (putAll (putAll e dB) dA) ∧
      ((alookup k (putAll (putAll e dA) dB)).isSome ↔
        (alookup k dA).isSome ∨ (alookup k dB).isSome ∨ (alookup k e).isSome) := by
  have hdisj : ∀ k, (alookup k dA).isSome → (alookup k dB).isSome → False := by
    intro k h1 h2
    obtain ⟨c1, hc1, hcd1⟩ := docs_by_id_keys_scoped hA hdA k h1
    obtain ⟨c2, hc2, hcd2⟩ := docs_by_id_keys_scoped hB hdB k h2
    have heq : tA ++ "." ++ c1 = tB ++ "." ++ c2 := by rw [← hc1, ← hc2]
    exact hne (scoped_eq_scoped hcd1 hcd2 heq).1
  intro k
  refine ⟨putAll_comm_disjoint hdisj e k, ?_⟩
  rw [alookup_putAll, alookup_putAll, oor_isSome, oor_isSome,
    lastLookup_isSome_iff, lastLookup_isSome_iff]
  simp only [Bool.or_eq_true]
  tauto

theorem c3_witness :
    (("proj.ds.weight" : String) ≠ "proj.ds.height") ∧
    docs_by_id_row "proj.ds.weight" "pid"
        [("pid", some (Value.vStr "P1")), ("value", some (Value.vInt 70))] =
      Except.ok (Value.vStr "P1", [("proj.ds.weight.value", Value.vInt 70)]) ∧
    docs_by_id_row "proj.ds.height" "pid"
        [("pid", some (Value.vStr "P1")), ("value", some (Value.vInt 180))] =
      Except.ok (Value.vStr "P1", [("proj.ds.height.value", Value.vInt 180)]) ∧
    alookup "proj.ds.weight.value"
        (putAll (putAll [] [("proj.ds.weight.value", Value.vInt 70)])
          [("proj.ds.height.value", Value.vInt 180)]) =
      alookup "proj.ds.weight.value"
        (putAll (putAll [] [("proj.ds.height.value", Value.vInt 180)])
          [("proj.ds.weight.value", Value.vInt 70)]) ∧
    ((alookup "proj.ds.height.value"
        (putAll (putAll [] [("proj.ds.weight.value", Value.vInt 70)])
          [("proj.ds.height.value", Value.vInt 180)])).isSome ↔
      (alookup "proj.ds.height.value" [("proj.ds.weight.value", Value.vInt 70)]).isSome ∨
      (alookup "proj.ds.height.value" [("proj.ds.height.value", Value.vInt 180)]).isSome ∨
      (alookup "proj.ds.height.value" ([] : Doc)).isSome) := by
  have h := c3_docs_by_id_order_independent "proj.ds.weight" "proj.ds.height" "pid"
    [("pid", some (Value.vStr "P1")), ("value", some (Value.vInt 70))]
    [("pid", some (Value.vStr "P1")), ("value", some (Value.vInt 180))]
    [] (Value.vStr "P1") (Value.vStr "P1")
    [("proj.ds.weight.value", Value.vInt 70)]
    [("proj.ds.height.value", Value.vInt 180)]
    (by decide) (by decide) (by decide) (by rfl) (by rfl)
  exact ⟨by decide, by rfl, by rfl, (h "proj.ds.weight.value").1,
    (h "proj.ds.height.value").2⟩

/-! ### `_sample_scripts_by_id` lemmas -/

theorem addFileFlags_cons (t ft col : String) (rest : List (String × String)) (d : Doc) :
    addFileFlags t ((ft, col) :: rest) d =
      addFileFlags t rest
        (if strIn t col then
          putKV d (hasName ft) (Value.vBool (truthyOpt (alookup col d)))
        else d) := rfl

theorem addFileFlags_lookup_other {t : String} {sfc : List (String × String)}
    {k : String} (hno : ∀ q ∈ sfc, k ≠ hasName q.1) :
    ∀ d : Doc, alookup k (addFileFlags t sfc d) = alookup k d := by
  induction sfc with
  | nil =>
      intro d
      rfl
  | cons q rest ih =>
      intro d
      obtain ⟨ft, col⟩ := q
      have hk : k ≠ hasName ft := hno (ft, col) (List.mem_cons_self _ _)
      have hrest : ∀ q ∈ rest, k ≠ hasName q.1 := fun q hq =>
        hno q (List.mem_cons_of_mem _ hq)
      rw [addFileFlags_cons, ih hrest]
      by_cases hs : strIn t col
      · rw [if_pos hs, alookup_putKV, if_neg (fun h => hk h.symm)]
      · rw [if_neg hs]

theorem addFileFlags_lookup_flag {t : String} :
    ∀ {sfc : List (String × String)} {ft col : String}, (ft, col) ∈ sfc →
      (sfc.map (fun q => hasName q.1)).Nodup →
      (∀ q ∈ sfc, ∀ q2 ∈ sfc, q.2 ≠ hasName q2.1) →
      ∀ d : Doc, alookup (hasName ft) d = none →
      alookup (hasName ft) (addFileFlags t sfc d) =
        if strIn t col then some (Value.vBool (truthyOpt (alookup col d))) else none := by
  intro sfc
  induction sfc with
  | nil =>
      intro ft col hmem
      simp at hmem
  | cons q rest ih =>
      intro ft col hmem hN hnc d hflag
      obtain ⟨ft', col'⟩ := q
      simp only [List.map_cons, List.nodup_cons] at hN
      rcases List.mem_cons.mp hmem with hhead | htail
      · injection hhead with h1 h2
        subst h1
        subst h2
        have hrest : ∀ q ∈ rest, hasName ft ≠ hasName q.1 := by
          intro q hq h
          exact hN.1 (List.mem_map.mpr ⟨q, hq, h.symm⟩)
        rw [addFileFlags_cons]
        by_cases hs : strIn t col
        · rw [if_pos hs, if_pos hs,
            addFileFlags_lookup_other (fun q hq => hrest q hq) _,
            alookup_putKV, if_pos rfl]
        · rw [if_neg hs, if_neg hs,
            addFileFlags_lookup_other (fun q hq => hrest q hq) _, hflag]
      · have hne : hasName ft ≠ hasName ft' := by
          intro h
          exact hN.1 (List.mem_map.mpr ⟨(ft, col), htail, h⟩)
        have hcol : col ≠ hasName ft' :=
          hnc (ft, col) hmem (ft', col') (List.mem_cons_self _ _)
        rw [addFileFlags_cons]
        set acc := (if strIn t col' then
          putKV d (hasName ft') (Value.vBool (truthyOpt (alookup col' d)))
        else d) with hacc
        have hflag' : alookup (hasName ft) acc = none := by
          rw [hacc]
          by_cases hs : strIn t col'
          · rw [if_pos hs, alookup_putKV, if_neg (fun h => hne h.symm), hflag]
          · rw [if_neg hs, hflag]
        have hcol' : alookup col acc = alookup col d := by
          rw [hacc]
          by_cases hs : strIn t col'
          · rw [if_pos hs, alookup_putKV, if_neg (fun h => hcol h.symm)]
          · rw [if_neg hs]
        have hncr : ∀ q ∈ rest, ∀ q2 ∈ rest, q.2 ≠ hasName q2.1 := fun q hq q2 hq2 =>
          hnc q (List.mem_cons_of_mem _ hq) q2 (List.mem_cons_of_mem _ hq2)
        rw [ih htail hN.2 hncr acc hflag', hcol']

theorem scoped_no_flag {t sid : String} (hsid : '.' ∉ sid.data) {d : Doc} {x : String}
    (hxdot : '.' ∉ x.data) (hxs : x ≠ sid) :
    alookup x (scopeKeysExcept t sid d) = none := by
  cases hv : alookup x (scopeKeysExcept t sid d) with
  | none => rfl
  | some v =>
      obtain ⟨c, hc, _⟩ := (alookup_scopeKeysExcept_iff hsid).mp hv
      unfold scopeName at hc
      by_cases hcs : c = sid
      · rw [if_pos hcs] at hc
        exact absurd (hc.trans hcs) hxs
      · rw [if_neg hcs] at hc
        exact absurd hc (unscoped_ne_scoped hxdot)

theorem scoped_sid_lookup {t sid : String} (hsid : '.' ∉ sid.data) (d : Doc) :
    alookup sid (scopeKeysExcept t sid d) = alookup sid d := by
  cases ha : alookup sid d with
  | some v =>
      exact (alookup_scopeKeysExcept_iff hsid).mpr ⟨sid, by simp [scopeName], ha⟩
  | none =>
      cases hv : alookup sid (scopeKeysExcept t sid d) with
      | none => rfl
      | some v =>
          obtain ⟨c, hc, hl⟩ := (alookup_scopeKeysExcept_iff hsid).mp hv
          unfold scopeName at hc
          by_cases hcs : c = sid
          · rw [if_pos hcs] at hc
            rw [hcs] at hl
            rw [hl] at ha
            cases ha
          · rw [if_neg hcs] at hc
            exact absurd hc (unscoped_ne_scoped hsid)

theorem scoped_col_lookup {t sid c : String} (hsid : '.' ∉ sid.data)
    (hcs : c ≠ sid) (d : Doc) :
    alookup (t ++ "." ++ c) (scopeKeysExcept t sid d) = alookup c d := by
  cases ha : alookup c d with
  | some v =>
      refine (alookup_scopeKeysExcept_iff hsid).mpr ⟨c, ?_, ha⟩
      simp [scopeName, hcs]
  | none =>
      cases hv : alookup (t ++ "." ++ c) (scopeKeysExcept t sid d) with
      | none => rfl
      | some v =>
          obtain ⟨c', hc', hl⟩ := (alookup_scopeKeysExcept_iff hsid).mp hv
          unfold scopeName at hc'
          by_cases hcs' : c' = sid
          · rw [if_pos hcs', hcs'] at hc'
            exact absurd hc'.symm (unscoped_ne_scoped hsid)
          · rw [if_neg hcs'] at hc'
            have : c = c' := scoped_inj_right hc'
            subst this
            rw [hl] at ha
            cases ha

/-- The success case of `sample_scripts_by_id_row`, decomposed. -/
theorem sample_scripts_by_id_row_ok {t pid sid : String} {sfc : List (String × String)}
    {row : Row} {idv : Value} {d : Doc}
    (hok : sample_scripts_by_id_row t pid sid sfc row = Except.ok (idv, d)) :
    alookup pid (dropna row) = some idv ∧
    d = addFileFlags t sfc (scopeKeysExcept t sid (eraseKey (dropna row) pid)) := by
  unfold sample_scripts_by_id_row at hok
  cases h : alookup pid (dropna row) with
  | none =>
      rw [h] at hok
      cases hok
  | some w =>
      rw [h] at hok
      injection hok with hok
      injection hok with h1 h2
      subst h1
      exact ⟨rfl, h2.symm⟩

/-- C4: in every merge-operation payload produced by `_sample_scripts_by_id`,
a present non-ID column `c` of the row appears under the scoped name
`<table>.c` with its value; the sample-ID column appears under its unscoped
original name with its value; and the scoped name `<table>.<sample-ID column>`
does not occur.  (Hygiene hypotheses: distinct row columns, dot-free sample-ID
column distinct from the participant-ID column, and `_has_*` flag names that
are dot-free and distinct from the sample-ID column.) -/
theorem c4_sample_scoping_except_sid (t pid sid : String)
    (sfc : List (String × String)) (row : Row) (idv : Value) (d : Doc)
    (hok : sample_scripts_by_id_row t pid sid sfc row = Except.ok (idv, d))
    (hnd : (row.map Prod.fst).Nodup)
    (hsp : sid ≠ pid)
    (hsdot : '.' ∉ sid.data)
    (hfl : ∀ q ∈ sfc, '.' ∉ (hasName q.1).data ∧ sid ≠ hasName q.1) :
    (∀ c v, (c, some v) ∈ row → c ≠ pid → c ≠ sid →
      alookup (t ++ "." ++ c) d = some v) ∧
    (∀ v, (sid, some v) ∈ row → alookup sid d = some v) ∧
    alookup (t ++ "." ++ sid) d = none := by
  obtain ⟨hpd, hd⟩ := sample_scripts_by_id_row_ok hok
  subst hd
  have hscope_transparent : ∀ x : String, '.' ∈ x.data →
      ∀ d0 : Doc, alookup x (addFileFlags t sfc d0) = alookup x d0 := by
    intro x hx d0
    apply addFileFlags_lookup_other
    intro q hq h
    exact (hfl q hq).1 (h ▸ hx)
  refine ⟨?_, ?_, ?_⟩
  · intro c v hmem hcp hcs
    rw [hscope_transparent _ (dot_mem_scoped t c) _, scoped_col_lookup hsdot hcs,
      alookup_eraseKey, if_neg hcp]
    exact mem_alookup_nodup (dropna_nodup hnd) (mem_dropna.mpr hmem)
  · intro v hmem
    rw [addFileFlags_lookup_other (fun q hq => (hfl q hq).2) _,
      scoped_sid_lookup hsdot, alookup_eraseKey, if_neg hsp]
    exact mem_alookup_nodup (dropna_nodup hnd) (mem_dropna.mpr hmem)
  · rw [hscope_transparent _ (dot_mem_scoped t sid) _]
    cases hv : alookup (t ++ "." ++ sid)
        (scopeKeysExcept t sid (eraseKey (dropna row) pid)) with
    | none => rfl
    | some v =>
        obtain ⟨c, hc, _⟩ := (alookup_scopeKeysExcept_iff hsdot).mp hv
        unfold scopeName at hc
        by_cases hcs : c = sid
        · rw [if_pos hcs, hcs] at hc
          exact absurd hc.symm (unscoped_ne_scoped hsdot)
        · rw [if_neg hcs] at hc
          exact absurd (scoped_inj_right hc).symm hcs

theorem c4_witness :
    sample_scripts_by_id_row "p.d.t" "pid" "sid" [("BAM", "p.d.t.bam")]
        [("pid", some (Value.vStr "P1")), ("sid", some (Value.vStr "S1")),
         ("bam", some (Value.vStr "gs://x")), ("other", none)] =
      Except.ok (Value.vStr "P1",
        [("sid", Value.vStr "S1"), ("p.d.t.bam", Value.vStr "gs://x"),
         ("_has_bam", Value.vBool true)]) ∧
    (("sid" : String) ≠ "pid") ∧
    '.' ∉ ("sid" : String).data ∧
    alookup ("p.d.t" ++ "." ++ "bam")
        [("sid", Value.vStr "S1"), ("p.d.t.bam", Value.vStr "gs://x"),
         ("_has_bam", Value.vBool true)] = some (Value.vStr "gs://x") ∧
    alookup "sid"
        [("sid", Value.vStr "S1"), ("p.d.t.bam", Value.vStr "gs://x"),
         ("_has_bam", Value.vBool true)] = some (Value.vStr "S1") ∧
    alookup ("p.d.t" ++ "." ++ "sid")
        [("sid", Value.vStr "S1"), ("p.d.t.bam", Value.vStr "gs://x"),
         ("_has_bam", Value.vBool true)] = none := by
  have h := c4_sample_scoping_except_sid "p.d.t" "pid" "sid" [("BAM", "p.d.t.bam")]
    [("pid", some (Value.vStr "P1")), ("sid", some (Value.vStr "S1")),
     ("bam", some (Value.vStr "gs://x")), ("other", none)]
    (Value.vStr "P1")
    [("sid", Value.vStr "S1"), ("p.d.t.bam", Value.vStr "gs://x"),
     ("_has_bam", Value.vBool true)]
    (by rfl) (by decide) (by decide) (by decide) (by decide)
  exact ⟨by rfl, by decide, by decide,
    h.1 "bam" (Value.vStr "gs://x") (by decide) (by decide) (by decide),
    h.2.1 (Value.vStr "S1") (by decide), h.2.2⟩

theorem scoped_lookup_row_iff {t pid sid : String} {row : Row}
    (hnd : (row.map Prod.fst).Nodup) (hsdot : '.' ∉ sid.data) (col : String) (v : Value) :
    alookup col (scopeKeysExcept t sid (eraseKey (dropna row) pid)) = some v ↔
      ∃ c, col = scopeName t sid c ∧ c ≠ pid ∧ (c, some v) ∈ row := by
  rw [alookup_scopeKeysExcept_iff hsdot]
  constructor
  · rintro ⟨c, hc, hl⟩
    rw [alookup_eraseKey] at hl
    by_cases hcp : c = pid
    · rw [if_pos hcp] at hl
      cases hl
    · rw [if_neg hcp] at hl
      exact ⟨c, hc, hcp, mem_dropna.mp (alookup_mem hl)⟩
  · rintro ⟨c, hc, hcp, hmem⟩
    refine ⟨c, hc, ?_⟩
    rw [alookup_eraseKey, if_neg hcp]
    exact mem_alookup_nodup (dropna_nodup hnd) (mem_dropna.mpr hmem)

/-- C5 (amended): in a merge-operation payload built from a row of table `t`,
the derived flag `_has_<file_type>` is present if and only if the configured
column for that file type contains `t` as a substring — the code's
`table_name in col` test, which is weaker than the column belonging to table
`t` and can also fire for a column of a different table whose name extends
`t` — and when present, its boolean value is true exactly when the configured
column, read as a scoped field of the null-dropped row, is present and truthy,
spelt out at row level by the final equivalence.  (Hygiene hypotheses:
distinct row columns, dot-free sample-ID column, dot-free flag names distinct
from the sample-ID column and pairwise distinct, and no configured column
equal to a flag name.) -/
theorem c5_has_file_flags (t pid sid : String) (sfc : List (String × String))
    (row : Row) (idv : Value) (d : Doc) (ft col : String)
    (hok : sample_scripts_by_id_row t pid sid sfc row = Except.ok (idv, d))
    (hmem : (ft, col) ∈ sfc)
    (hnd : (row.map Prod.fst).Nodup)
    (hsdot : '.' ∉ sid.data)
    (hfl : ∀ q ∈ sfc, '.' ∉ (hasName q.1).data ∧ sid ≠ hasName q.1)
    (hN : (sfc.map (fun q => hasName q.1)).Nodup)
    (hnc : ∀ q ∈ sfc, ∀ q2 ∈ sfc, q.2 ≠ hasName q2.1) :
    (strIn t col = false → alookup (hasName ft) d = none) ∧
    (strIn t col = true →
      alookup (hasName ft) d =
        some (Value.vBool (truthyOpt (alookup col
          (scopeKeysExcept t sid (eraseKey (dropna row) pid))))) ∧
      (truthyOpt (alookup col (scopeKeysExcept t sid (eraseKey (dropna row) pid))) = true ↔
        ∃ c v, (c, some v) ∈ row ∧ c ≠ pid ∧ col = scopeName t sid c ∧
          truthy v = true)) := by
  obtain ⟨hpd, hd⟩ := sample_scripts_by_id_row_ok hok
  subst hd
  have hflag0 : alookup (hasName ft)
      (scopeKeysExcept t sid (eraseKey (dropna row) pid)) = none :=
    scoped_no_flag hsdot ((hfl (ft, col) hmem).1) (Ne.symm (hfl (ft, col) hmem).2)
  have hmain := @addFileFlags_lookup_flag t sfc ft col hmem hN hnc
    (scopeKeysExcept t sid (eraseKey (dropna row) pid)) hflag0
  constructor
  · intro hs
    rw [hmain, hs]
    rfl
  · intro hs
    refine ⟨by rw [hmain, hs]; rfl, ?_⟩
    constructor
    · intro ht
      cases hcol : alookup col (scopeKeysExcept t sid (eraseKey (dropna row) pid)) with
      | none =>
          rw [hcol] at ht
          cases ht
      | some v =>
          obtain ⟨c, hc, hcp, hmemrow⟩ := (scoped_lookup_row_iff hnd hsdot col v).mp hcol
          rw [hcol] at ht
          exact ⟨c, v, hmemrow, hcp, hc, ht⟩
    · rintro ⟨c, v, hmemrow, hcp, hc, ht⟩
      rw [(scoped_lookup_row_iff hnd hsdot col v).mpr ⟨c, hc, hcp, hmemrow⟩]
      exact ht

theorem c5_witness :
    sample_scripts_by_id_row "p.d.t" "pid" "sid" [("BAM", "p.d.t.bam")]
        [("pid", some (Value.vStr "P1")), ("sid", some (Value.vStr "S1")),
         ("bam", some (Value.vStr "gs://x")), ("other", none)] =
      Except.ok (Value.vStr "P1",
        [("sid", Value.vStr "S1"), ("p.d.t.bam", Value.vStr "gs://x"),
         ("_has_bam", Value.vBool true)]) ∧
    (("BAM", "p.d.t.bam") ∈ ([("BAM", "p.d.t.bam")] : List (String × String))) ∧
    strIn "p.d.t" "p.d.t.bam" = true ∧
    alookup (hasName "BAM")
        [("sid", Value.vStr "S1"), ("p.d.t.bam", Value.vStr "gs://x"),
         ("_has_bam", Value.vBool true)] =
      some (Value.vBool (truthyOpt (alookup "p.d.t.bam"
        (scopeKeysExcept "p.d.t" "sid"
          (eraseKey (dropna
            [("pid", some (Value.vStr "P1")), ("sid", some (Value.vStr "S1")),
             ("bam", some (Value.vStr "gs://x")), ("other", none)]) "pid"))))) ∧
    (truthyOpt (alookup "p.d.t.bam"
        (scopeKeysExcept "p.d.t" "sid"
          (eraseKey (dropna
            [("pid", some (Value.vStr "P1")), ("sid", some (Value.vStr "S1")),
             ("bam", some (Value.vStr "gs://x")), ("other", none)]) "pid"))) = true ↔
      ∃ c v, (c, some v) ∈
          ([("pid", some (Value.vStr "P1")), ("sid", some (Value.vStr "S1")),
            ("bam", some (Value.vStr "gs://x")), ("other", none)] : Row) ∧
        c ≠ "pid" ∧ ("p.d.t.bam" : String) = scopeName "p.d.t" "sid" c ∧
        truthy v = true) := by
  have h := c5_has_file_flags "p.d.t" "pid" "sid" [("BAM", "p.d.t.bam")]
    [("pid", some (Value.vStr "P1")), ("sid", some (Value.vStr "S1")),
     ("bam", some (Value.vStr "gs://x")), ("other", none)]
    (Value.vStr "P1")
    [("sid", Value.vStr "S1"), ("p.d.t.bam", Value.vStr "gs://x"),
     ("_has_bam", Value.vBool true)]
    "BAM" "p.d.t.bam"
    (by rfl) (by decide) (by decide) (by decide) (by decide) (by decide) (by decide)
  have h2 := h.2 (by decide)
  exact ⟨by rfl, by decide, by decide, h2.1, h2.2⟩

/-- C5 counterexample: indexing table `p.d.t` with the file-type column
`p.d.t2.bam` — a column of the different table `p.d.t2`, whose name merely
extends `p.d.t` — still takes the `table_name in col` branch (the substring
test is true) and writes `_has_bam: False` into `p.d.t`'s merge-operation
payload: an operation built from a table that does not own the column does
contain the derived flag, refuting the claim's only-if direction. -/
theorem c5_counterexample :
    ("p.d.t2.bam" : String) = "p.d.t2" ++ "." ++ "bam" ∧
    ("p.d.t2" : String) ≠ "p.d.t" ∧
    strIn "p.d.t" "p.d.t2.bam" = true ∧
    sample_scripts_by_id_row "p.d.t" "pid" "sid" [("BAM", "p.d.t2.bam")]
        [("pid", some (Value.vStr "P1")), ("sid", some (Value.vStr "S1")),
         ("bam", some (Value.vStr "gs://x"))] =
      Except.ok (Value.vStr "P1",
        [("sid", Value.vStr "S1"), ("p.d.t.bam", Value.vStr "gs://x"),
         ("_has_bam", Value.vBool false)]) ∧
    alookup "_has_bam"
        [("sid", Value.vStr "S1"), ("p.d.t.bam", Value.vStr "gs://x"),
         ("_has_bam", Value.vBool false)] = some (Value.vBool false) := by
  exact ⟨by decide, by decide, by decide, by rfl, by decide⟩

/-! ### index_table -/

/-- C6: if the participant-ID column is absent from the fetched dataframe's
columns, `index_table` raises the ValueError and hands nothing to the bulk
indexer: the result is the error, not a `Submission`. -/
theorem c6_missing_pid_fatal (t pid : String) (sid : Option String)
    (sfc : List (String × String)) (df : DataFrame)
    (h : pid ∉ df.columns) :
    index_table t pid sid sfc df =
      Except.error
        ("Participant ID column " ++ pid ++ " not found in BigQuery table " ++ t) := by
  unfold index_table
  rw [if_neg h]

theorem c6_witness :
    (("pid" : String) ∉ (DataFrame.mk ["x"] []).columns) ∧
    index_table "t" "pid" none [] (DataFrame.mk ["x"] []) =
      Except.error
        ("Participant ID column " ++ "pid" ++ " not found in BigQuery table " ++ "t") :=
  ⟨by decide, c6_missing_pid_fatal "t" "pid" none [] (DataFrame.mk ["x"] []) (by decide)⟩

/-! ### _get_nested_mappings -/

theorem mappings_isNil_toList (m : Mappings) : m.isNil = m.toList.isEmpty := by
  cases m <;> rfl

theorem needsMappingL_eq_any : ∀ fs : SchemaFields,
    needsMappingL fs = fs.toList.any needsMapping
  | .nil => rfl
  | .cons f t => by
      show (needsMapping f || needsMappingL t) = (f :: t.toList).any needsMapping
      rw [needsMappingL_eq_any t, List.any_cons]

mutual

theorem nestedEntriesF_eq : ∀ (pfx : Option String) (f : SchemaField),
    nestedEntriesF pfx f = if needsMapping f then some (entrySpec pfx f) else none
  | pfx, SchemaField.mk n ftype mode fields => by
      have hL := nestedEntriesL_eq none fields
      have key : (nestedEntriesL none fields).isNil = !needsMappingL fields := by
        rw [mappings_isNil_toList, hL, needsMappingL_eq_any]
        cases ha : fields.toList.any needsMapping with
        | false =>
            have hfe : fields.toList.filter needsMapping = [] := by
              rw [List.filter_eq_nil_iff]
              intro a hmem ha2
              rw [List.any_eq_false] at ha
              exact ha a hmem ha2
            rw [hfe]
            rfl
        | true =>
            obtain ⟨x, hx, hpx⟩ := List.any_eq_true.mp ha
            have hxm : x ∈ fields.toList.filter needsMapping :=
              List.mem_filter.mpr ⟨hx, hpx⟩
            cases hfe : fields.toList.filter needsMapping with
            | nil =>
                rw [hfe] at hxm
                simp at hxm
            | cons y ys => rfl
      have hcond : ((decide (mode = "REPEATED") && decide (ftype = "RECORD")) ||
          !(nestedEntriesL none fields).isNil) =
          needsMapping (SchemaField.mk n ftype mode fields) := by
        rw [key, Bool.not_not]
        rfl
      show (if ((decide (mode = "REPEATED") && decide (ftype = "RECORD")) ||
          !(nestedEntriesL none fields).isNil) = true then
            some (mkFieldName pfx n,
              MappingEntry.mk (decide (mode = "REPEATED") && decide (ftype = "RECORD"))
                (nestedEntriesL none fields))
          else none) =
        if needsMapping (SchemaField.mk n ftype mode fields) then
          some (entrySpec pfx (SchemaField.mk n ftype mode fields)) else none
      rw [hcond]
      rfl

theorem nestedEntriesL_eq : ∀ (pfx : Option String) (fs : SchemaFields),
    (nestedEntriesL pfx fs).toList = (fs.toList.filter needsMapping).map (entrySpec pfx)
  | _, .nil => rfl
  | pfx, .cons f rest => by
      have hF := nestedEntriesF_eq pfx f
      have hL := nestedEntriesL_eq pfx rest
      show (match nestedEntriesF pfx f with
            | some (nm, e) => Mappings.cons nm e (nestedEntriesL pfx rest)
            | none => nestedEntriesL pfx rest).toList =
        ((f :: rest.toList).filter needsMapping).map (entrySpec pfx)
      rw [hF]
      cases hn : needsMapping f with
      | false =>
          rw [if_neg (by simp [hn]), List.filter_cons_of_neg (by simp [hn])]
          exact hL
      | true =>
          rw [if_pos (by simp [hn]), List.filter_cons_of_pos (by simp [hn])]
          show Mappings.toList (Mappings.cons (entrySpec pfx f).1 (entrySpec pfx f).2
            (nestedEntriesL pfx rest)) = entrySpec pfx f :: _
          rw [Mappings.toList]
          rw [hL]

end

theorem needsMapping_of_isRepRec {f : SchemaField} (h : isRepRec f = true) :
    needsMapping f = true := by
  cases f with
  | mk n ftype mode fields =>
      show ((decide (mode = "REPEATED") && decide (ftype = "RECORD")) ||
        needsMappingL fields) = true
      unfold isRepRec at h
      simp only [SchemaField.mode, SchemaField.field_type] at h
      rw [h]
      rfl

theorem nestedEntriesL_isNil_eq (pfx : Option String) (fs : SchemaFields) :
    (nestedEntriesL pfx fs).isNil = !needsMappingL fs := by
  rw [mappings_isNil_toList, nestedEntriesL_eq, needsMappingL_eq_any]
  cases ha : fs.toList.any needsMapping with
  | false =>
      have hfe : fs.toList.filter needsMapping = [] := by
        rw [List.filter_eq_nil_iff]
        intro a hmem ha2
        rw [List.any_eq_false] at ha
        exact ha a hmem ha2
      rw [hfe]
      rfl
  | true =>
      obtain ⟨x, hx, hpx⟩ := List.any_eq_true.mp ha
      have hxm : x ∈ fs.toList.filter needsMapping := List.mem_filter.mpr ⟨hx, hpx⟩
      cases hfe : fs.toList.filter needsMapping with
      | nil =>
          rw [hfe] at hxm
          simp at hxm
      | cons y ys => rfl

/-- C7 (amended): the entries built by `_get_nested_mappings` are exactly one
entry per schema field needing a mapping, in order, each keyed by the field's
prefixed name and carrying the nested marker iff the field is a repeated
record, with its `properties` sub-mapping built by the recursion **with no
prefix** (so entries for deeper repeated-record nodes are keyed by their bare
names, not their full dotted names); every repeated-record field of the list
contributes a nested-typed entry; leaf scalar fields contribute nothing (they
need no mapping); and the function returns `None` exactly when no field at any
depth needs a special mapping. -/
theorem c7_nested_mappings_shape (schema : SchemaFields) (pfx : Option String) :
    (nestedEntriesL pfx schema).toList =
      (schema.toList.filter needsMapping).map (entrySpec pfx) ∧
    (∀ f ∈ schema.toList, isRepRec f = true →
      (mkFieldName pfx f.name, MappingEntry.mk true (nestedEntriesL none f.fields)) ∈
        (nestedEntriesL pfx schema).toList) ∧
    (_get_nested_mappings schema pfx = none ↔ needsMappingL schema = false) := by
  refine ⟨nestedEntriesL_eq pfx schema, ?_, ?_⟩
  · intro f hf hrep
    rw [nestedEntriesL_eq]
    refine List.mem_map.mpr ⟨f, List.mem_filter.mpr ⟨hf, needsMapping_of_isRepRec hrep⟩, ?_⟩
    unfold entrySpec
    rw [hrep]
  · have key := nestedEntriesL_isNil_eq pfx schema
    unfold _get_nested_mappings
    cases hc : nestedEntriesL pfx schema with
    | nil =>
        rw [hc] at key
        constructor
        · intro _
          cases hn : needsMappingL schema
          · rfl
          · rw [hn] at key
            cases key
        · intro _
          rfl
    | cons nm e rest =>
        rw [hc] at key
        constructor
        · intro h
          cases h
        · intro h
          rw [h] at key
          cases key

theorem c7_witness :
    (nestedEntriesL (some "t") exNestedSchema).toList =
      ((exNestedSchema.toList.filter needsMapping).map (entrySpec (some "t"))) ∧
    (_get_nested_mappings exScalarChildSchema (some "t") = none ↔
      needsMappingL exScalarChildSchema = false) := by
  exact ⟨(c7_nested_mappings_shape exNestedSchema (some "t")).1,
    (c7_nested_mappings_shape exScalarChildSchema (some "t")).2.2⟩

/-- C7 counterexample: for the schema `a { b : repeated record }` under prefix
`t`, the deeper repeated-record node `b` yields an entry keyed by its bare name
`b` inside `t.a`'s properties — the key `t.a.b` (the node's full dotted name)
appears nowhere; moreover a record node whose children are all scalars emits no
`properties` entry at all (the result is `None`). -/
theorem c7_counterexample :
    _get_nested_mappings exNestedSchema (some "t") =
      some (.cons "t.a" (MappingEntry.mk false
        (.cons "b" (MappingEntry.mk true .nil) .nil)) .nil) ∧
    collectNestedKeysOpt (_get_nested_mappings exNestedSchema (some "t")) = ["b"] ∧
    ¬ ("t.a.b" ∈ collectNestedKeysOpt (_get_nested_mappings exNestedSchema (some "t"))) ∧
    _get_nested_mappings exScalarChildSchema (some "t") = none := by
  refine ⟨rfl, rfl, ?_, rfl⟩
  intro h
  rw [show collectNestedKeysOpt (_get_nested_mappings exNestedSchema (some "t")) =
    ["b"] from rfl] at h
  exact absurd h (by decide)

/-! ### Export lemmas -/

theorem splitCharsDot_ne_nil (l : List Char) : splitCharsDot l ≠ [] := by
  induction l with
  | nil => simp [splitCharsDot]
  | cons c t ih =>
      by_cases hc : c = '.'
      · simp [splitCharsDot, hc]
      · simp only [splitCharsDot, if_neg hc]
        cases h : splitCharsDot t with
        | nil => exact absurd h ih
        | cons a r => simp

theorem splitCharsDot_length (l : List Char) :
    (splitCharsDot l).length = l.count '.' + 1 := by
  induction l with
  | nil => rfl
  | cons c t ih =>
      by_cases hc : c = '.'
      · subst hc
        simp [splitCharsDot, ih, List.count_cons]
      · simp only [splitCharsDot, if_neg hc]
        cases h : splitCharsDot t with
        | nil => exact absurd h (splitCharsDot_ne_nil t)
        | cons a r =>
            rw [h] at ih
            simp only [List.length_cons] at ih ⊢
            rw [List.count_cons]
            simp [hc, ih]

theorem splitCharsDot_parts {l : List Char} :
    ∀ part ∈ splitCharsDot l, '.' ∉ part := by
  induction l with
  | nil =>
      intro part hp
      simp [splitCharsDot] at hp
      simp [hp]
  | cons c t ih =>
      by_cases hc : c = '.'
      · subst hc
        intro part hp
        simp only [splitCharsDot, if_pos rfl] at hp
        cases hp with
        | head => simp
        | tail b hp => exact ih part hp
      · intro part hp
        simp only [splitCharsDot, if_neg hc] at hp
        cases h : splitCharsDot t with
        | nil => exact absurd h (splitCharsDot_ne_nil t)
        | cons a r =>
            rw [h] at hp
            rcases List.mem_cons.mp hp with hpe | hp2
            · rw [hpe]
              intro hmem
              rcases List.mem_cons.mp hmem with h1 | h2
              · exact hc h1.symm
              · exact ih a (h ▸ List.mem_cons_self _ _) h2
            · exact ih part (h ▸ List.mem_cons_of_mem _ hp2)

theorem splitDots_dotfree {s : String} : ∀ part ∈ splitDots s, '.' ∉ part.data := by
  intro part hp
  obtain ⟨l, hl, hl2⟩ := List.mem_map.mp hp
  rw [← hl2]
  exact splitCharsDot_parts l hl

theorem splitDots_length (s : String) : (splitDots s).length = s.data.count '.' + 1 := by
  unfold splitDots
  rw [List.length_map]
  exact splitCharsDot_length s.data

theorem dot_of_two_le_segs {s : String} (h : 2 ≤ (splitDots s).length) :
    '.' ∈ s.data := by
  by_contra hnot
  rw [splitDots_length, List.count_eq_zero.mpr hnot] at h
  omega

theorem getD_mem {α : Type} : ∀ (l : List α) (i : Nat) (d : α), i < l.length →
    l.getD i d ∈ l
  | [], i, d, h => by simp at h
  | a :: t, 0, d, _ => by simp
  | a :: t, i + 1, d, h => by
      have hi : i < t.length := by simpa using h
      simpa using List.mem_cons_of_mem a (getD_mem t i d hi)

theorem buildAttrs_fold_keys :
    ∀ (sample : Doc) (acc : Doc) (k : String),
      (alookup k (sample.foldl exportStep acc)).isSome ↔
        ((alookup k acc).isSome ∨
          ∃ kp ∈ sample, (splitDots kp.1).length = 4 ∧ (splitDots kp.1).getD 3 "" = k) := by
  intro sample
  induction sample with
  | nil =>
      intro acc k
      simp
  | cons p t ih =>
      intro acc k
      rw [List.foldl_cons, ih]
      unfold exportStep
      by_cases h4 : (splitDots p.1).length = 4
      · rw [if_pos h4]
        constructor
        · rintro (h | h)
          · rw [alookup_putKV] at h
            by_cases hk : (splitDots p.1).getD 3 "" = k
            · exact Or.inr ⟨p, List.mem_cons_self _ _, h4, hk⟩
            · rw [if_neg hk] at h
              exact Or.inl h
          · obtain ⟨kp, hkp, h1, h2⟩ := h
            exact Or.inr ⟨kp, List.mem_cons_of_mem _ hkp, h1, h2⟩
        · rintro (h | ⟨kp, hkp, h1, h2⟩)
          · left
            rw [alookup_putKV]
            by_cases hk : (splitDots p.1).getD 3 "" = k
            · rw [if_pos hk]
              rfl
            · rw [if_neg hk]
              exact h
          · rcases List.mem_cons.mp hkp with rfl | hmem
            · left
              rw [alookup_putKV, if_pos h2]
              rfl
            · exact Or.inr ⟨kp, hmem, h1, h2⟩
      · rw [if_neg h4]
        constructor
        · rintro (h | h)
          · exact Or.inl h
          · obtain ⟨kp, hkp, h1, h2⟩ := h
            exact Or.inr ⟨kp, List.mem_cons_of_mem _ hkp, h1, h2⟩
        · rintro (h | ⟨kp, hkp, h1, h2⟩)
          · exact Or.inl h
          · rcases List.mem_cons.mp hkp with rfl | hmem
            · exact absurd h1 h4
            · exact Or.inr ⟨kp, hmem, h1, h2⟩

/-- C8: the exported attributes of a sample consist of the `participant` entry
plus exactly the projections of the sample fields whose name has four
dot-separated segments (keyed by the fourth segment); a sample field whose
name has a dot but not exactly four segments never occurs among the
attributes. -/
theorem c8_export_four_segment_filter (pid : Value) (sample : Doc) :
    (∀ k, (alookup k (buildAttrs pid sample)).isSome ↔
      (k = "participant" ∨
        ∃ kp ∈ sample, (splitDots kp.1).length = 4 ∧ (splitDots kp.1).getD 3 "" = k)) ∧
    (∀ kp ∈ sample, 2 ≤ (splitDots kp.1).length → (splitDots kp.1).length ≠ 4 →
      alookup kp.1 (buildAttrs pid sample) = none) := by
  have hmain : ∀ k, (alookup k (buildAttrs pid sample)).isSome ↔
      (k = "participant" ∨
        ∃ kp ∈ sample, (splitDots kp.1).length = 4 ∧ (splitDots kp.1).getD 3 "" = k) := by
    intro k
    unfold buildAttrs
    rw [buildAttrs_fold_keys]
    have hacc : (alookup k [("participant", pid)]).isSome ↔ k = "participant" := by
      by_cases hk : ("participant" : String) = k
      · rw [alookup_cons, if_pos hk]
        exact ⟨fun _ => hk.symm, fun _ => rfl⟩
      · rw [alookup_cons, if_neg hk, alookup_nil]
        constructor
        · intro h
          cases h
        · intro h
          exact absurd h.symm hk
    rw [hacc]
  refine ⟨hmain, ?_⟩
  intro kp hkp h2 hne4
  have hdot : '.' ∈ kp.1.data := dot_of_two_le_segs h2
  cases hv : alookup kp.1 (buildAttrs pid sample) with
  | none => rfl
  | some v =>
      have hsome : (alookup kp.1 (buildAttrs pid sample)).isSome := by
        rw [hv]
        rfl
      rcases (hmain kp.1).mp hsome with hpart | ⟨kq, _, h41, h42⟩
      · rw [hpart] at hdot
        exact absurd hdot (by decide)
      · have hmem4 : (splitDots kq.1).getD 3 "" ∈ splitDots kq.1 := by
          apply getD_mem
          omega
        have := splitDots_dotfree _ hmem4
        rw [h42] at this
        exact absurd hdot this

theorem c8_witness :
    ((alookup "Col" (buildAttrs (Value.vStr "P1")
      [("sample_id", Value.vStr "S1"), ("_has_bam", Value.vBool true),
       ("p.d.t.Col", Value.vInt 7), ("a.b", Value.vInt 9)])).isSome ↔
      (("Col" : String) = "participant" ∨
        ∃ kp ∈ ([("sample_id", Value.vStr "S1"), ("_has_bam", Value.vBool true),
          ("p.d.t.Col", Value.vInt 7), ("a.b", Value.vInt 9)] : Doc),
          (splitDots kp.1).length = 4 ∧ (splitDots kp.1).getD 3 "" = "Col")) ∧
    alookup "a.b" (buildAttrs (Value.vStr "P1")
      [("sample_id", Value.vStr "S1"), ("_has_bam", Value.vBool true),
       ("p.d.t.Col", Value.vInt 7), ("a.b", Value.vInt 9)]) = none := by
  have h := c8_export_four_segment_filter (Value.vStr "P1")
    [("sample_id", Value.vStr "S1"), ("_has_bam", Value.vBool true),
     ("p.d.t.Col", Value.vInt 7), ("a.b", Value.vInt 9)]
  exact ⟨h.1 "Col",
    h.2 ("a.b", Value.vInt 9) (by decide) (by decide) (by decide)⟩

/-- C9: the per-sample export step reads the sample's identity from the field
literally named `sample_id` (the model takes no configured sample-ID column at
all, mirroring `create_samples_json_export_file`): if that key is absent the
step raises KeyError and produces no record, and if present the record's name
is exactly its value. -/
theorem c9_export_reads_literal_sample_id (pid : Value) (sample : Doc) :
    (alookup "sample_id" sample = none →
      exportSampleRecord pid sample = Except.error "KeyError: sample_id") ∧
    (∀ v, alookup "sample_id" sample = some v →
      exportSampleRecord pid sample =
        Except.ok ⟨"sample", v, buildAttrs pid sample⟩) := by
  constructor
  · intro h
    unfold exportSampleRecord
    rw [h]
  · intro v h
    unfold exportSampleRecord
    rw [h]

theorem c9_witness :
    alookup "sample_id" [("t.a.b.c", Value.vInt 1)] = none ∧
    exportSampleRecord (Value.vStr "P1") [("t.a.b.c", Value.vInt 1)] =
      Except.error "KeyError: sample_id" :=
  ⟨by decide,
    (c9_export_reads_literal_sample_id (Value.vStr "P1") [("t.a.b.c", Value.vInt 1)]).1
      (by decide)⟩

/-! ### Bridge: `_sample_scripts_by_id` payloads satisfy the merge-invariant
hypotheses -/

theorem putKV_keys_mem {d : Doc} {k x : String} {v : Value}
    (h : x ∈ (putKV d k v).map Prod.fst) : x ∈ d.map Prod.fst ∨ x = k := by
  induction d with
  | nil =>
      simp [putKV] at h
      exact Or.inr h
  | cons p t ih =>
      obtain ⟨a, b⟩ := p
      by_cases hak : a = k
      · rw [show putKV ((a, b) :: t) k v = (k, v) :: t by simp [putKV, hak]] at h
        simp only [List.map_cons, List.mem_cons] at h
        rcases h with h | h
        · exact Or.inr h
        · exact Or.inl (by simp [h])
      · rw [show putKV ((a, b) :: t) k v = (a, b) :: putKV t k v by simp [putKV, hak]] at h
        simp only [List.map_cons, List.mem_cons] at h
        rcases h with h | h
        · exact Or.inl (by simp [h])
        · rcases ih h with h2 | h2
          · exact Or.inl (by simp [h2])
          · exact Or.inr h2

theorem putKV_keys_nodup {d : Doc} {k : String} {v : Value}
    (hnd : (d.map Prod.fst).Nodup) : ((putKV d k v).map Prod.fst).Nodup := by
  induction d with
  | nil => simp [putKV]
  | cons p t ih =>
      obtain ⟨a, b⟩ := p
      simp only [List.map_cons, List.nodup_cons] at hnd
      by_cases hak : a = k
      · rw [show putKV ((a, b) :: t) k v = (k, v) :: t by simp [putKV, hak]]
        simp only [List.map_cons, List.nodup_cons]
        exact ⟨hak ▸ hnd.1, hnd.2⟩
      · rw [show putKV ((a, b) :: t) k v = (a, b) :: putKV t k v by simp [putKV, hak]]
        simp only [List.map_cons, List.nodup_cons]
        refine ⟨fun hmem => ?_, ih hnd.2⟩
        rcases putKV_keys_mem hmem with h | h
        · exact hnd.1 h
        · exact hak h

theorem addFileFlags_keys_nodup {t : String} {sfc : List (String × String)} :
    ∀ {d : Doc}, (d.map Prod.fst).Nodup → ((addFileFlags t sfc d).map Prod.fst).Nodup := by
  induction sfc with
  | nil =>
      intro d h
      exact h
  | cons q rest ih =>
      intro d h
      obtain ⟨ft, col⟩ := q
      rw [addFileFlags_cons]
      by_cases hs : strIn t col
      · rw [if_pos hs]
        exact ih (putKV_keys_nodup h)
      · rw [if_neg hs]
        exact ih h

theorem scopeKeysExcept_keys_nodup {t sid : String} (hsid : '.' ∉ sid.data)
    {d : Doc} (hnd : (d.map Prod.fst).Nodup) :
    ((scopeKeysExcept t sid d).map Prod.fst).Nodup := by
  have hmap : (scopeKeysExcept t sid d).map Prod.fst =
      (d.map Prod.fst).map (scopeName t sid) := by
    unfold scopeKeysExcept
    rw [List.map_map, List.map_map]
    rfl
  rw [hmap]
  exact List.Nodup.map (fun a b h => scopeName_inj hsid h) hnd

/-- Payloads yielded by `_sample_scripts_by_id` from a row whose sample-ID
column holds `v` satisfy the hypotheses of the merge invariant: they carry the
unscoped sample-ID field with value `v`, and their keys are distinct. -/
theorem sample_payload_sid_and_nodup (t pid sid : String)
    (sfc : List (String × String)) (row : Row) (idv v : Value) (d : Doc)
    (hok : sample_scripts_by_id_row t pid sid sfc row = Except.ok (idv, d))
    (hnd : (row.map Prod.fst).Nodup)
    (hsp : sid ≠ pid)
    (hsdot : '.' ∉ sid.data)
    (hfl : ∀ q ∈ sfc, sid ≠ hasName q.1)
    (hmem : (sid, some v) ∈ row) :
    alookup sid d = some v ∧ (d.map Prod.fst).Nodup := by
  obtain ⟨hpd, hd⟩ := sample_scripts_by_id_row_ok hok
  subst hd
  constructor
  · rw [addFileFlags_lookup_other hfl _, scoped_sid_lookup hsdot,
      alookup_eraseKey, if_neg hsp]
    exact mem_alookup_nodup (dropna_nodup hnd) (mem_dropna.mpr hmem)
  · exact addFileFlags_keys_nodup
      (scopeKeysExcept_keys_nodup hsdot (eraseKey_nodup (dropna_nodup hnd)))

end BQIndexer
